import Mathlib

/-!
Structure identifier.

A shallow embedding of `structure_identifier/testers.hpp` and
`structure_identifier/identifier.hpp`, instantiated at `T = int`, together with
theorems about the identification engine.

Conventions of the embedding.

* Values and operation codes are `Int`: the program only compares and stores
  them, it never computes with them.
* Calling a member function outside its precondition (`peek()` or `pop()` on an
  empty container, indexing a vector out of bounds) is undefined behaviour in
  the program; here such a call yields `none`.
* The standard containers are modelled by lists: `std::stack` with its top at
  the head of the list, `std::queue` and `std::deque` with their front at the
  head, and `std::priority_queue` by its underlying vector kept as a binary
  heap (`push_back` then `push_heap`, `pop_heap` then `pop_back`, `top` is
  `front`).
-/

namespace StructureIdentifier

/-! ## Binary heap on a vector: the model of `std::priority_queue` -/

/-- Exchange of the entries at positions `i` and `j` of a vector. -/
def iterSwap (a : List Int) (i j : Nat) : List Int :=
  (a.set i (a.getD j 0)).set j (a.getD i 0)

/-- Sift the entry at position `i` up towards the root while its parent
compares less than it (`comp parent child`). The first argument bounds the
number of iterations. -/
def siftUp (comp : Int → Int → Bool) : Nat → List Int → Nat → List Int
  | 0, a, _ => a
  | fuel + 1, a, i =>
    if i = 0 then a
    else if comp (a.getD ((i - 1) / 2) 0) (a.getD i 0) then
      siftUp comp fuel (iterSwap a i ((i - 1) / 2)) ((i - 1) / 2)
    else a

/-- Model of `std::push_heap(first, last, comp)`: the last entry is sifted up
into the heap formed by the entries before it. -/
def pushHeap (comp : Int → Int → Bool) (a : List Int) : List Int :=
  siftUp comp a.length a (a.length - 1)

/-- The child of `i` (among the positions below `len`) that should move up, or
`i` itself when neither child compares greater. -/
def largestOfThree (comp : Int → Int → Bool) (a : List Int) (len i : Nat) : Nat :=
  let l := 2 * i + 1
  let r := 2 * i + 2
  let m := if l < len ∧ comp (a.getD i 0) (a.getD l 0) = true then l else i
  if r < len ∧ comp (a.getD m 0) (a.getD r 0) = true then r else m

/-- Sift the entry at position `i` down inside the range `[0, len)`. The first
argument bounds the number of iterations. -/
def siftDown (comp : Int → Int → Bool) : Nat → List Int → Nat → Nat → List Int
  | 0, a, _, _ => a
  | fuel + 1, a, len, i =>
    if largestOfThree comp a len i = i then a
    else siftDown comp fuel (iterSwap a i (largestOfThree comp a len i)) len
      (largestOfThree comp a len i)

/-- Model of `std::pop_heap(first, last, comp)`: the front entry is exchanged
with the last one and the new front is sifted down inside the range without the
last position. -/
def popHeap (comp : Int → Int → Bool) (a : List Int) : List Int :=
  siftDown comp (a.length - 1) (iterSwap a 0 (a.length - 1)) (a.length - 1) 0

/-- Model of `std::priority_queue::push`: `c.push_back(x); push_heap(...)`. -/
def pqPush (comp : Int → Int → Bool) (c : List Int) (x : Int) : List Int :=
  pushHeap comp (c ++ [x])

/-- Model of `std::priority_queue::pop`: `pop_heap(...); c.pop_back()`. -/
def pqPop (comp : Int → Int → Bool) (c : List Int) : List Int :=
  (popHeap comp c).dropLast

/-- The comparison `std::less<int>`, the default of `std::priority_queue`. -/
def stdLess (a b : Int) : Bool := decide (a < b)

/-- The comparison `std::greater<int>`. -/
def stdGreater (a b : Int) : Bool := decide (a > b)

/-! ## Testers (`testers.hpp`) -/

/-- The five concrete classes deriving from `IStructureTester`. -/
inductive TesterType where
  | StackTester
  | QueueTester
  | MaxPriorityQueueTester
  | MinPriorityQueueTester
  | DequeFrontTester
  deriving DecidableEq, Repr

/-- A tester object: its dynamic class and its `data_` member. -/
structure Tester where
  kind : TesterType
  data_ : List Int
  deriving DecidableEq, Repr

namespace Tester

/-- Member `push(value)` of each tester class. -/
def push (value : Int) (t : Tester) : Tester :=
  match t.kind with
  | .StackTester => { t with data_ := value :: t.data_ }
  | .QueueTester => { t with data_ := t.data_ ++ [value] }
  | .MaxPriorityQueueTester => { t with data_ := pqPush stdLess t.data_ value }
  | .MinPriorityQueueTester => { t with data_ := pqPush stdGreater t.data_ value }
  | .DequeFrontTester => { t with data_ := t.data_ ++ [value] }

/-- Member `empty()`. -/
def empty (t : Tester) : Bool := t.data_.isEmpty

/-- Member `peek()`: `top()` or `front()` of the container; undefined on an
empty container. -/
def peek (t : Tester) : Option Int :=
  match t.kind with
  | .StackTester => t.data_.head?
  | .QueueTester => t.data_.head?
  | .MaxPriorityQueueTester => t.data_.head?
  | .MinPriorityQueueTester => t.data_.head?
  | .DequeFrontTester => t.data_.head?

/-- Member `pop()`; undefined on an empty container. -/
def pop (t : Tester) : Option Tester :=
  match t.data_ with
  | [] => none
  | _ :: rest =>
    match t.kind with
    | .StackTester => some { t with data_ := rest }
    | .QueueTester => some { t with data_ := rest }
    | .MaxPriorityQueueTester => some { t with data_ := pqPop stdLess t.data_ }
    | .MinPriorityQueueTester => some { t with data_ := pqPop stdGreater t.data_ }
    | .DequeFrontTester => some { t with data_ := rest }

/-- Member `reset()`. -/
def reset (t : Tester) : Tester := { t with data_ := [] }

/-- Member `name()`. -/
def name (t : Tester) : String :=
  match t.kind with
  | .StackTester => "stos"
  | .QueueTester => "kolejka"
  | .MaxPriorityQueueTester => "kolejka priorytetowa"
  | .MinPriorityQueueTester => "kolejka priorytetowa min"
  | .DequeFrontTester => "deque (FIFO)"

/-- Member `IStructureTester::testPop(expected)`: the returned flag and the
tester afterwards. -/
def testPop (expected : Int) (t : Tester) : Option (Bool × Tester) :=
  if t.empty then some (false, t)
  else
    match t.peek with
    | none => none
    | some v =>
      match t.pop with
      | none => none
      | some t' => some (decide (v = expected), t')

end Tester

/-! ## The engine (`identifier.hpp`) -/

/-- The enumeration `Result::Status`. -/
inductive Status where
  | IMPOSSIBLE
  | UNCERTAIN
  | IDENTIFIED
  deriving DecidableEq, Repr

/-- The structure `StructureIdentifier::Result`. -/
structure Result where
  status : Status
  matchingStructures : List String
  deriving DecidableEq, Repr

/-- Member `Result::getMessage()`. -/
def Result.getMessage (r : Result) : String :=
  match r.status with
  | .IMPOSSIBLE => "niemozliwe"
  | .UNCERTAIN => "brak pewnosci"
  | .IDENTIFIED =>
    match r.matchingStructures with
    | [] => "niemozliwe"
    | s :: _ => s

/-- Member `Result::isIdentified()`. -/
def Result.isIdentified (r : Result) : Bool :=
  decide (r.status = Status.IDENTIFIED) && !r.matchingStructures.isEmpty

/-- The constant `OP_PUSH`. -/
def OP_PUSH : Int := 1

/-- The constant `OP_POP`. -/
def OP_POP : Int := 2

/-- The data members of `StructureIdentifier<int>`. -/
structure Engine where
  testers_ : List Tester
  isValid_ : List Bool
  deriving DecidableEq, Repr

namespace Engine

/-- A default-constructed `StructureIdentifier<int>`. -/
def new : Engine := { testers_ := [], isValid_ := [] }

/-- Member `registerStructure<TesterType>()`. -/
def registerStructure (k : TesterType) (e : Engine) : Engine :=
  { testers_ := e.testers_ ++ [{ kind := k, data_ := [] }],
    isValid_ := e.isValid_ ++ [true] }

/-- Member `testerCount()`. -/
def testerCount (e : Engine) : Nat := e.testers_.length

/-- Member `resetAll()`. -/
def resetAll (e : Engine) : Engine :=
  { testers_ := e.testers_.map Tester.reset,
    isValid_ := e.isValid_.map (fun _ => true) }

/-- Member `pushAll(value)`. -/
def pushAll (value : Int) (e : Engine) : Engine :=
  { e with testers_ := e.testers_.map (Tester.push value) }

/-- Body of the loop of `testPopAll` at index `i`. -/
def testPopAt (expected : Int) (e : Engine) (i : Nat) : Option Engine :=
  match e.testers_[i]? with
  | none => none
  | some t =>
    match t.testPop expected with
    | none => none
    | some (ok, t') =>
      if ok then some { e with testers_ := e.testers_.set i t' }
      else if i < e.isValid_.length then
        some { testers_ := e.testers_.set i t', isValid_ := e.isValid_.set i false }
      else none

/-- Member `testPopAll(expected)`: the loop over `i = 0 .. testers_.size()-1`. -/
def testPopAll (expected : Int) (e : Engine) : Option Engine :=
  (List.range e.testers_.length).foldlM (testPopAt expected) e

/-- Body of the loop of `identify` for one operation `(op, value)`, acting on
the engine and on the local `hasInvalidOp`. -/
def identifyStep (st : Engine × Bool) (o : Int × Int) : Option (Engine × Bool) :=
  if o.1 = OP_PUSH then some (pushAll o.2 st.1, st.2)
  else if o.1 = OP_POP then
    match st.1.testers_[0]? with
    | none => none
    | some t0 =>
      if t0.empty then some (st.1, true)
      else
        match testPopAll o.2 st.1 with
        | none => none
        | some e' => some (e', st.2)
  else some st

/-- The loop of `identify` over the operations. -/
def identifyLoop (st : Engine × Bool) (operations : List (Int × Int)) :
    Option (Engine × Bool) :=
  operations.foldlM identifyStep st

/-- Body of the loop of `buildResult` at index `i`. -/
def collectAt (e : Engine) (acc : List String) (i : Nat) : Option (List String) :=
  match e.isValid_[i]? with
  | none => none
  | some v =>
    if v then
      match e.testers_[i]? with
      | none => none
      | some t => some (acc ++ [t.name])
    else some acc

/-- Member `buildResult(hasInvalidOp)`. -/
def buildResult (e : Engine) (hasInvalidOp : Bool) : Option Result :=
  match (List.range e.testers_.length).foldlM (collectAt e) [] with
  | none => none
  | some found =>
    if hasInvalidOp || found.isEmpty then some { status := .IMPOSSIBLE, matchingStructures := [] }
    else if found.length > 1 then some { status := .UNCERTAIN, matchingStructures := found }
    else some { status := .IDENTIFIED, matchingStructures := found }

/-- Member `identify(operations)`: the result together with the engine as the
call leaves it. -/
def identify (e : Engine) (operations : List (Int × Int)) : Option (Result × Engine) :=
  match identifyLoop (resetAll e, false) operations with
  | none => none
  | some (e', hasInvalidOp) =>
    match buildResult e' hasInvalidOp with
    | none => none
    | some r => some (r, e')

end Engine

/-- Factory `createDefaultIdentifier()`. -/
def createDefaultIdentifier : Engine :=
  Engine.registerStructure .MaxPriorityQueueTester
    (Engine.registerStructure .QueueTester
      (Engine.registerStructure .StackTester Engine.new))

/-- Factory `createFullIdentifier()`. -/
def createFullIdentifier : Engine :=
  Engine.registerStructure .DequeFrontTester
    (Engine.registerStructure .MinPriorityQueueTester
      (Engine.registerStructure .MaxPriorityQueueTester
        (Engine.registerStructure .QueueTester
          (Engine.registerStructure .StackTester Engine.new))))

/-! ## Engines built by registration, and sequences of calls -/

/-- The engine obtained from a default-constructed one by registering testers
of the classes `ks`, in that order. -/
def registerAll (ks : List TesterType) : Engine :=
  ks.foldl (fun e k => Engine.registerStructure k e) Engine.new

/-- The engine left by a sequence of `identify` calls, one per trace. -/
def identifyAll (e : Engine) : List (List (Int × Int)) → Option Engine
  | [] => some e
  | t :: rest =>
    match Engine.identify e t with
    | none => none
    | some (_, e') => identifyAll e' rest

/-- The names of the testers whose validity flag is set, in registration
order. -/
def validNames (e : Engine) : List String :=
  ((e.testers_.zip e.isValid_).filter (fun p => p.2)).map (fun p => p.1.name)

/-! ## Reference disciplines, following the specification

The held values are kept in the order in which they were pushed. -/

/-- The value a discipline removes next from the held values: the last pushed
for the stack, the first pushed for the queue and the FIFO deque, the maximum
for the max-priority-queue, the minimum for the min-priority-queue. -/
def refNext (k : TesterType) (held : List Int) : Option Int :=
  match k with
  | .StackTester => held.getLast?
  | .QueueTester => held.head?
  | .MaxPriorityQueueTester => held.max?
  | .MinPriorityQueueTester => held.min?
  | .DequeFrontTester => held.head?

/-- The held values once the discipline has removed its next value. -/
def refRemove (k : TesterType) (held : List Int) : List Int :=
  match k with
  | .StackTester => held.dropLast
  | .QueueTester => held.tail
  | .MaxPriorityQueueTester =>
    match held.max? with
    | none => held
    | some m => held.erase m
  | .MinPriorityQueueTester =>
    match held.min? with
    | none => held
    | some m => held.erase m
  | .DequeFrontTester => held.tail

/-- A trace is consistent with a discipline, started with the given held
values, when every pop claims exactly the value the discipline removes next.
Operations with a code other than push or pop are ignored. -/
def refConsistent (k : TesterType) : List Int → List (Int × Int) → Bool
  | _, [] => true
  | held, o :: rest =>
    if o.1 = OP_PUSH then refConsistent k (held ++ [o.2]) rest
    else if o.1 = OP_POP then
      match refNext k held with
      | none => false
      | some x => decide (x = o.2) && refConsistent k (refRemove k held) rest
    else refConsistent k held rest

/-- No pop of the trace is issued while the structure, holding `n` values at
the start, is empty. -/
def noPopOnEmpty : Nat → List (Int × Int) → Bool
  | _, [] => true
  | n, o :: rest =>
    if o.1 = OP_PUSH then noPopOnEmpty (n + 1) rest
    else if o.1 = OP_POP then
      match n with
      | 0 => false
      | m + 1 => noPopOnEmpty m rest
    else noPopOnEmpty n rest

/-! ## Per-tester view of one call

What the loop of `identify` does to a single tester and its validity flag,
when emptiness of the first tester is the emptiness of every tester. -/

/-- Total form of `testPop`: the flag and the tester afterwards. -/
def Tester.testPopT (expected : Int) (t : Tester) : Bool × Tester :=
  match t.data_ with
  | [] => (false, t)
  | v :: rest =>
    match t.kind with
    | .StackTester => (decide (v = expected), { t with data_ := rest })
    | .QueueTester => (decide (v = expected), { t with data_ := rest })
    | .MaxPriorityQueueTester => (decide (v = expected), { t with data_ := pqPop stdLess t.data_ })
    | .MinPriorityQueueTester => (decide (v = expected), { t with data_ := pqPop stdGreater t.data_ })
    | .DequeFrontTester => (decide (v = expected), { t with data_ := rest })

/-- One operation on one tester paired with its validity flag. -/
def simStep (p : Tester × Bool) (o : Int × Int) : Tester × Bool :=
  if o.1 = OP_PUSH then (p.1.push o.2, p.2)
  else if o.1 = OP_POP then
    if p.1.empty then p
    else ((p.1.testPopT o.2).2, p.2 && (p.1.testPopT o.2).1)
  else p

/-- A whole trace on one tester paired with its validity flag. -/
def simRun (p : Tester × Bool) (ops : List (Int × Int)) : Tester × Bool :=
  ops.foldl simStep p

/-- One operation on the common element count and the invalid-operation
flag. -/
def countStep (s : Nat × Bool) (o : Int × Int) : Nat × Bool :=
  if o.1 = OP_PUSH then (s.1 + 1, s.2)
  else if o.1 = OP_POP then
    match s.1 with
    | 0 => (0, true)
    | m + 1 => (m, s.2)
  else s

/-- A whole trace on the common element count and the invalid-operation
flag. -/
def countRun (s : Nat × Bool) (ops : List (Int × Int)) : Nat × Bool :=
  ops.foldl countStep s

/-- The engine whose testers and validity flags are the components of the
given pairs. -/
def ofPairs (ps : List (Tester × Bool)) : Engine :=
  { testers_ := ps.map Prod.fst, isValid_ := ps.map Prod.snd }

/-- The heap condition on the first `len` entries of a vector: no entry
compares greater than its parent. -/
def IsHeap (comp : Int → Int → Bool) (a : List Int) (len : Nat) : Prop :=
  ∀ i, 0 < i → i < len → comp (a.getD ((i - 1) / 2) 0) (a.getD i 0) = false

/-! ## Predicates and auxiliary functions used in the proofs -/

structure StrictWeak (comp : Int → Int → Bool) : Prop where
  asymm : ∀ x y, comp x y = true → comp y x = false
  ntrans : ∀ x y z, comp x y = false → comp y z = false → comp x z = false

/-- Heap condition on `[0, len)` except possibly between `i` and its parent. -/
def HeapExceptUp (comp : Int → Int → Bool) (a : List Int) (len i : Nat) : Prop :=
  (∀ j, 0 < j → j < len → j ≠ i → comp (a.getD ((j - 1) / 2) 0) (a.getD j 0) = false) ∧
  (∀ j, 0 < j → j < len → (j - 1) / 2 = i → 0 < i →
    comp (a.getD ((i - 1) / 2) 0) (a.getD j 0) = false)

/-- Heap condition on `[0, len)` except possibly between `i` and its children. -/
def HeapExceptDown (comp : Int → Int → Bool) (a : List Int) (len i : Nat) : Prop :=
  (∀ j, 0 < j → j < len → (j - 1) / 2 ≠ i →
    comp (a.getD ((j - 1) / 2) 0) (a.getD j 0) = false) ∧
  (∀ j, 0 < j → j < len → (j - 1) / 2 = i → 0 < i →
    comp (a.getD ((i - 1) / 2) 0) (a.getD j 0) = false)

/-- State of the loop of `testPopAll` after the indices below `k`. -/
def PopLoopInv (x : Int) (ps : List (Tester × Bool)) (k : Nat) (s : Engine) : Prop :=
  (∀ j, s.testers_[j]? =
    if j < k then ps[j]?.map (fun p => (p.1.testPopT x).2) else ps[j]?.map Prod.fst) ∧
  (∀ j, s.isValid_[j]? =
    if j < k then ps[j]?.map (fun p => p.2 && (p.1.testPopT x).1) else ps[j]?.map Prod.snd)

/-- One `Pop` on one tester paired with its validity flag. -/
def popPair (x : Int) (p : Tester × Bool) : Tester × Bool :=
  ((p.1.testPopT x).2, p.2 && (p.1.testPopT x).1)

/-- The result `buildResult` forms from the flag and the collected names. -/
def resultOf (hasInvalidOp : Bool) (found : List String) : Result :=
  if hasInvalidOp || found.isEmpty then { status := .IMPOSSIBLE, matchingStructures := [] }
  else if found.length > 1 then { status := .UNCERTAIN, matchingStructures := found }
  else { status := .IDENTIFIED, matchingStructures := found }

/-- Names of the pairs whose flag is set. -/
def pairNames (ps : List (Tester × Bool)) : List String :=
  (ps.filter (fun p => p.2)).map (fun p => p.1.name)

/-- Every tester of the pairs holds `n` values. -/
def Lockstep (ps : List (Tester × Bool)) (n : Nat) : Prop :=
  ∀ p ∈ ps, p.1.data_.length = n

/-- The pairs of a just-reset engine whose testers have the classes `ks`. -/
def fresh (ks : List TesterType) : List (Tester × Bool) :=
  ks.map (fun k => ({ kind := k, data_ := [] }, true))

/-- The engine has one tester of each class of `ks`, in order, and as many
validity flags. -/
def HasShape (ks : List TesterType) (e : Engine) : Prop :=
  e.testers_.map Tester.kind = ks ∧ e.isValid_.length = ks.length

/-- The pairs at the end of the loop of `identify` on a trace. -/
def finalPairs (ks : List TesterType) (ops : List (Int × Int)) : List (Tester × Bool) :=
  (fresh ks).map (fun p => simRun p ops)

/-- The contents of a tester of class `k` stand for the held values of the
reference discipline. -/
def Represents (k : TesterType) (data held : List Int) : Prop :=
  match k with
  | .StackTester => data = held.reverse
  | .QueueTester => data = held
  | .MaxPriorityQueueTester => data.Perm held ∧ IsHeap stdLess data data.length
  | .MinPriorityQueueTester => data.Perm held ∧ IsHeap stdGreater data data.length
  | .DequeFrontTester => data = held

/-- A call of a member function on a tester. -/
inductive TesterCall where
  | push (value : Int)
  | pop
  | testPop (expected : Int)
  deriving DecidableEq, Repr

/-- One call on a tester: the tester afterwards and the flags returned by
`testPop`; `none` when `pop()` is called on an empty tester. -/
def Tester.applyCall (t : Tester) (c : TesterCall) : Option (Tester × List Bool) :=
  match c with
  | .push value => some (t.push value, [])
  | .pop =>
    match t.pop with
    | none => none
    | some t' => some (t', [])
  | .testPop expected =>
    match t.testPop expected with
    | none => none
    | some (ok, t') => some (t', [ok])

/-- A sequence of calls on a tester: the tester afterwards and the flags
returned by the `testPop` calls, in order. -/
def Tester.applyCalls (t : Tester) : List TesterCall → Option (Tester × List Bool)
  | [] => some (t, [])
  | c :: rest =>
    match t.applyCall c with
    | none => none
    | some (t', flags) =>
      match Tester.applyCalls t' rest with
      | none => none
      | some (t'', flags') => some (t'', flags ++ flags')

/-! ## Engine variants that skip pushes to falsified testers

The variants follow the design note of the specification: they differ from
`identify` only in the function that handles a push. -/

/-- Push applied to the testers whose validity flag is set. -/
def pushValid (value : Int) : List Tester → List Bool → List Tester
  | t :: ts, v :: vs => (if v then t.push value else t) :: pushValid value ts vs
  | ts, _ => ts

/-- Variant of `pushAll`: a push is not applied to a tester whose validity flag
is already false. -/
def Engine.pushAllSkipFalsified (value : Int) (e : Engine) : Engine :=
  { e with testers_ := pushValid value e.testers_ e.isValid_ }

/-- Variant of `pushAll`: a push is not applied to a tester, other than the
first registered one, whose validity flag is already false. -/
def Engine.pushAllSkipFalsifiedExceptFirst (value : Int) (e : Engine) : Engine :=
  match e.testers_, e.isValid_ with
  | t :: ts, _ :: vs => { e with testers_ := t.push value :: pushValid value ts vs }
  | _, _ => e

/-- The loop body of `identify` with the given function in the place of
`pushAll`. -/
def Engine.identifyStepWith (pushFn : Int → Engine → Engine) (st : Engine × Bool)
    (o : Int × Int) : Option (Engine × Bool) :=
  if o.1 = OP_PUSH then some (pushFn o.2 st.1, st.2)
  else if o.1 = OP_POP then
    match st.1.testers_[0]? with
    | none => none
    | some t0 =>
      if t0.empty then some (st.1, true)
      else
        match Engine.testPopAll o.2 st.1 with
        | none => none
        | some e' => some (e', st.2)
  else some st

/-- The function `identify` with the given function in the place of
`pushAll`. -/
def Engine.identifyWith (pushFn : Int → Engine → Engine) (e : Engine)
    (operations : List (Int × Int)) : Option (Result × Engine) :=
  match operations.foldlM (Engine.identifyStepWith pushFn) (Engine.resetAll e, false) with
  | none => none
  | some (e', hasInvalidOp) =>
    match Engine.buildResult e' hasInvalidOp with
    | none => none
    | some r => some (r, e')

/-! ## Counting operations -/

/-- Number of push operations of a trace. -/
def pushCount (ops : List (Int × Int)) : Nat :=
  ops.countP (fun o => decide (o.1 = OP_PUSH))

/-- Number of pop operations of a trace. -/
def popCount (ops : List (Int × Int)) : Nat :=
  ops.countP (fun o => decide (o.1 = OP_POP))

/-- Number of pop operations the loop of `identify` does not skip, started in
the given state: those reached while the first tester is not empty. -/
def executedPops : Engine × Bool → List (Int × Int) → Option Nat
  | _, [] => some 0
  | st, o :: rest =>
    match Engine.identifyStep st o with
    | none => none
    | some st' =>
      match executedPops st' rest with
      | none => none
      | some n =>
        if o.1 = OP_POP then
          match st.1.testers_[0]? with
          | none => none
          | some t0 => if t0.empty then some n else some (n + 1)
        else some n

/-- The vector of a priority-queue tester is a heap for its comparison. -/
def Tester.HeapInv (t : Tester) : Prop :=
  match t.kind with
  | .MaxPriorityQueueTester => IsHeap stdLess t.data_ t.data_.length
  | .MinPriorityQueueTester => IsHeap stdGreater t.data_ t.data_.length
  | _ => True

/-- The tester with the same contents and the given class. -/
def Tester.withKind (k : TesterType) (t : Tester) : Tester :=
  { kind := k, data_ := t.data_ }

/-- A pair of the engine and the pair at the same place in the variant: same
flag, and same tester while the flag is set. -/
def SameWhileValid (p q : Tester × Bool) : Prop :=
  p.2 = q.2 ∧ (p.2 = true → p.1 = q.1)

/-! ## Lemmas -/

theorem iterSwap_length (a : List Int) (i j : Nat) : (iterSwap a i j).length = a.length := by
  simp [iterSwap]

theorem iterSwap_getD (a : List Int) (i j k : Nat) (hi : i < a.length) (hj : j < a.length) :
    (iterSwap a i j).getD k 0 =
      if k = j then a.getD i 0 else if k = i then a.getD j 0 else a.getD k 0 := by
  unfold iterSwap
  simp only [List.getD_eq_getElem?_getD, List.getElem?_set, List.length_set]
  by_cases h1 : j = k
  · subst h1; simp [hj]
  · by_cases h2 : i = k
    · subst h2; simp [h1, hi, Ne.symm h1]
    · simp [h1, h2, Ne.symm h1, Ne.symm h2]

theorem iterSwap_perm (a : List Int) (i j : Nat) (hi : i < a.length) (hj : j < a.length) :
    (iterSwap a i j).Perm a := by
  rw [List.perm_iff_count]
  intro x
  unfold iterSwap
  rw [List.count_set _ _ _ _ (by simpa using hj), List.count_set _ _ _ _ hi]
  simp only [List.getD_eq_getElem?_getD, List.getElem?_eq_getElem hi, List.getElem?_eq_getElem hj,
    Option.getD_some, List.getElem_set]
  have h1 : a[i] = x → 0 < a.count x := fun h => h ▸ List.count_pos_iff.mpr (List.getElem_mem _)
  have h2 : a[j] = x → 0 < a.count x := fun h => h ▸ List.count_pos_iff.mpr (List.getElem_mem _)
  by_cases hij : i = j
  · subst hij
    simp only [if_true, beq_iff_eq]
    by_cases e1 : a[i] = x
    · have := h1 e1; simp [e1]; omega
    · simp [e1]
  · simp only [hij, if_false, beq_iff_eq]
    by_cases e1 : a[i] = x <;> by_cases e2 : a[j] = x
    · have := h1 e1; simp [e1, e2]; omega
    · have := h1 e1; simp [e1, e2]; omega
    · have := h2 e2; simp [e1, e2]
    · simp [e1, e2]

theorem StrictWeak.irrefl {comp : Int → Int → Bool} (h : StrictWeak comp) (x : Int) :
    comp x x = false := by
  cases hx : comp x x
  · rfl
  · have := h.asymm x x hx; rw [hx] at this; exact this

theorem StrictWeak.trans {comp : Int → Int → Bool} (h : StrictWeak comp) (x y z : Int)
    (h1 : comp x y = true) (h2 : comp y z = true) : comp x z = true := by
  cases hxz : comp x z
  · have h3 := h.asymm y z h2
    have h4 := h.ntrans x z y hxz h3
    rw [h1] at h4; exact absurd h4 (by decide)
  · rfl

theorem stdLess_strictWeak : StrictWeak stdLess := by
  constructor
  · intro x y h; simp only [stdLess, decide_eq_true_eq, decide_eq_false_iff_not] at *; omega
  · intro x y z h1 h2; simp only [stdLess, decide_eq_true_eq, decide_eq_false_iff_not] at *; omega

theorem stdGreater_strictWeak : StrictWeak stdGreater := by
  constructor
  · intro x y h; simp only [stdGreater, decide_eq_true_eq, decide_eq_false_iff_not] at *; omega
  · intro x y z h1 h2; simp only [stdGreater, decide_eq_true_eq, decide_eq_false_iff_not] at *; omega

theorem siftUp_length (comp : Int → Int → Bool) (fuel : Nat) (a : List Int) (i : Nat) :
    (siftUp comp fuel a i).length = a.length := by
  induction fuel generalizing a i with
  | zero => rfl
  | succ n ih =>
    unfold siftUp
    split
    · rfl
    · split
      · rw [ih, iterSwap_length]
      · rfl

theorem siftUp_perm (comp : Int → Int → Bool) (fuel : Nat) (a : List Int) (i : Nat)
    (hi : i < a.length) : (siftUp comp fuel a i).Perm a := by
  induction fuel generalizing a i with
  | zero => exact List.Perm.refl _
  | succ n ih =>
    unfold siftUp
    split
    · exact List.Perm.refl _
    · split
      · have hp : (i - 1) / 2 < a.length := by omega
        exact (ih _ _ (by rw [iterSwap_length]; exact hp)).trans (iterSwap_perm a i _ hi hp)
      · exact List.Perm.refl _

theorem siftUp_isHeap {comp : Int → Int → Bool} (hc : StrictWeak comp) (fuel : Nat)
    (a : List Int) (i : Nat) (hi : i < a.length) (hfuel : i ≤ fuel)
    (h : HeapExceptUp comp a a.length i) :
    IsHeap comp (siftUp comp fuel a i) a.length := by
  induction fuel generalizing a i with
  | zero =>
    have hi0 : i = 0 := by omega
    subst hi0
    intro j hj0 hjl
    exact h.1 j hj0 hjl (by omega)
  | succ n ih =>
    unfold siftUp
    split
    · next hi0 =>
      subst hi0
      intro j hj0 hjl
      exact h.1 j hj0 hjl (by omega)
    · next hi0 =>
      split
      · next hcmp =>
        have hp : (i - 1) / 2 < a.length := by omega
        have hpi : (i - 1) / 2 < i := by omega
        have hlen := iterSwap_length a i ((i - 1) / 2)
        rw [← hlen]
        apply ih _ _ (by rw [hlen]; exact hp) (by omega)
        rw [hlen]
        constructor
        · intro j hj0 hjl hjp
          rw [iterSwap_getD a _ _ _ hi hp, iterSwap_getD a _ _ _ hi hp]
          have hjj : (j - 1) / 2 < j := by omega
          by_cases hji : j = i
          · subst hji
            simp only [if_true, if_neg hjp]
            exact hc.asymm _ _ hcmp
          · rw [if_neg hjp, if_neg hji]
            by_cases hpj1 : (j - 1) / 2 = (i - 1) / 2
            · rw [if_pos hpj1]
              have h1 := h.1 j hj0 hjl hji
              rw [hpj1] at h1
              exact hc.ntrans _ _ _ (hc.asymm _ _ hcmp) h1
            · rw [if_neg hpj1]
              by_cases hpj2 : (j - 1) / 2 = i
              · rw [if_pos hpj2]
                exact h.2 j hj0 hjl hpj2 (by omega)
              · rw [if_neg hpj2]
                exact h.1 j hj0 hjl hji
        · intro j hj0 hjl hjp hp0
          rw [iterSwap_getD a _ _ _ hi hp, iterSwap_getD a _ _ _ hi hp]
          have hpp : ((i - 1) / 2 - 1) / 2 < (i - 1) / 2 := by omega
          rw [if_neg (by omega), if_neg (by omega)]
          have hjne : j ≠ (i - 1) / 2 := by omega
          rw [if_neg hjne]
          have hpar := h.1 ((i - 1) / 2) hp0 hp (by omega)
          by_cases hji : j = i
          · rw [if_pos hji]
            exact hpar
          · rw [if_neg hji]
            have h1 := h.1 j hj0 hjl hji
            rw [hjp] at h1
            exact hc.ntrans _ _ _ hpar h1
      · next hcmp =>
        intro j hj0 hjl
        by_cases hji : j = i
        · subst hji
          simpa using hcmp
        · exact h.1 j hj0 hjl hji

/-- What `largestOfThree` returns, with the comparisons that justify it. -/
theorem largestOfThree_spec {comp : Int → Int → Bool} (hc : StrictWeak comp) (a : List Int)
    (len i : Nat) :
    (largestOfThree comp a len i = i ∧
      (2 * i + 1 < len → comp (a.getD i 0) (a.getD (2 * i + 1) 0) = false) ∧
      (2 * i + 2 < len → comp (a.getD i 0) (a.getD (2 * i + 2) 0) = false)) ∨
    (largestOfThree comp a len i = 2 * i + 1 ∧ 2 * i + 1 < len ∧
      comp (a.getD i 0) (a.getD (2 * i + 1) 0) = true ∧
      (2 * i + 2 < len → comp (a.getD (2 * i + 1) 0) (a.getD (2 * i + 2) 0) = false)) ∨
    (largestOfThree comp a len i = 2 * i + 2 ∧ 2 * i + 2 < len ∧
      comp (a.getD i 0) (a.getD (2 * i + 2) 0) = true ∧
      comp (a.getD (2 * i + 2) 0) (a.getD (2 * i + 1) 0) = false) := by
  unfold largestOfThree
  simp only
  by_cases hl : 2 * i + 1 < len ∧ comp (a.getD i 0) (a.getD (2 * i + 1) 0) = true
  · rw [if_pos hl]
    by_cases hr : 2 * i + 2 < len ∧ comp (a.getD (2 * i + 1) 0) (a.getD (2 * i + 2) 0) = true
    · rw [if_pos hr]
      right; right
      exact ⟨rfl, hr.1, hc.trans _ _ _ hl.2 hr.2, hc.asymm _ _ hr.2⟩
    · rw [if_neg hr]
      right; left
      refine ⟨rfl, hl.1, hl.2, fun h => ?_⟩
      cases hx : comp (a.getD (2 * i + 1) 0) (a.getD (2 * i + 2) 0)
      · rfl
      · exact absurd ⟨h, hx⟩ hr
  · rw [if_neg hl]
    have hl' : 2 * i + 1 < len → comp (a.getD i 0) (a.getD (2 * i + 1) 0) = false := by
      intro h
      cases hx : comp (a.getD i 0) (a.getD (2 * i + 1) 0)
      · rfl
      · exact absurd ⟨h, hx⟩ hl
    by_cases hr : 2 * i + 2 < len ∧ comp (a.getD i 0) (a.getD (2 * i + 2) 0) = true
    · rw [if_pos hr]
      right; right
      exact ⟨rfl, hr.1, hr.2, hc.ntrans _ _ _ (hc.asymm _ _ hr.2) (hl' (by omega))⟩
    · rw [if_neg hr]
      left
      refine ⟨rfl, hl', fun h => ?_⟩
      cases hx : comp (a.getD i 0) (a.getD (2 * i + 2) 0)
      · rfl
      · exact absurd ⟨h, hx⟩ hr

theorem largestOfThree_range (comp : Int → Int → Bool) (a : List Int) (len i : Nat) :
    largestOfThree comp a len i = i ∨
      (i < largestOfThree comp a len i ∧ largestOfThree comp a len i < len) := by
  unfold largestOfThree
  simp only
  split <;> split <;> first | (left; rfl) | (right; omega)

theorem siftDown_length (comp : Int → Int → Bool) (fuel : Nat) (a : List Int) (len i : Nat) :
    (siftDown comp fuel a len i).length = a.length := by
  induction fuel generalizing a i with
  | zero => rfl
  | succ n ih =>
    unfold siftDown
    split
    · rfl
    · rw [ih, iterSwap_length]

theorem siftDown_perm (comp : Int → Int → Bool) (fuel : Nat) (a : List Int) (len i : Nat)
    (hlen : len ≤ a.length) (hi : i < len) : (siftDown comp fuel a len i).Perm a := by
  induction fuel generalizing a i with
  | zero => exact List.Perm.refl _
  | succ n ih =>
    unfold siftDown
    split
    · exact List.Perm.refl _
    · next hne =>
      rcases largestOfThree_range comp a len i with h | h
      · exact absurd h hne
      · exact (ih _ _ (by rw [iterSwap_length]; exact hlen) h.2).trans
          (iterSwap_perm a i _ (by omega) (by omega))

theorem siftDown_getD_of_le (comp : Int → Int → Bool) (fuel : Nat) (a : List Int) (len i : Nat)
    (hlen : len ≤ a.length) (hi : i < len) (k : Nat) (hk : len ≤ k) :
    (siftDown comp fuel a len i).getD k 0 = a.getD k 0 := by
  induction fuel generalizing a i with
  | zero => rfl
  | succ n ih =>
    unfold siftDown
    split
    · rfl
    · next hne =>
      rcases largestOfThree_range comp a len i with h | h
      · exact absurd h hne
      · rw [ih _ _ (by rw [iterSwap_length]; exact hlen) h.2,
          iterSwap_getD a _ _ _ (by omega) (by omega), if_neg (by omega), if_neg (by omega)]

theorem siftDown_isHeap {comp : Int → Int → Bool} (hc : StrictWeak comp) (fuel : Nat)
    (a : List Int) (len i : Nat) (hlen : len ≤ a.length) (hi : i < len)
    (hfuel : len ≤ fuel + i + 1) (h : HeapExceptDown comp a len i) :
    IsHeap comp (siftDown comp fuel a len i) len := by
  induction fuel generalizing a i with
  | zero =>
    intro j hj0 hjl
    exact h.1 j hj0 hjl (by omega)
  | succ n ih =>
    unfold siftDown
    rcases largestOfThree_spec hc a len i with ⟨hm, h1, h2⟩ | ⟨hm, hml, hcm, hsib⟩ | ⟨hm, hml, hcm, hsib⟩
    · rw [if_pos hm]
      intro j hj0 hjl
      by_cases hpj : (j - 1) / 2 = i
      · rw [hpj]
        have : j = 2 * i + 1 ∨ j = 2 * i + 2 := by omega
        rcases this with e | e
        · subst e; exact h1 hjl
        · subst e; exact h2 hjl
      · exact h.1 j hj0 hjl hpj
    · rw [hm, if_neg (by omega)]
      have hia : i < a.length := by omega
      have hma : 2 * i + 1 < a.length := by omega
      apply ih _ _ (by rw [iterSwap_length]; exact hlen) hml (by omega)
      constructor
      · intro j hj0 hjl hpj
        rw [iterSwap_getD a _ _ _ hia hma, iterSwap_getD a _ _ _ hia hma]
        have hjj : (j - 1) / 2 < j := by omega
        rw [if_neg hpj]
        by_cases hpji : (j - 1) / 2 = i
        · rw [if_pos hpji]
          have : j = 2 * i + 1 ∨ j = 2 * i + 2 := by omega
          rcases this with e | e
          · subst e
            rw [if_pos rfl]
            exact hc.asymm _ _ hcm
          · subst e
            rw [if_neg (by omega), if_neg (by omega)]
            exact hsib hjl
        · rw [if_neg hpji]
          have hjm : j ≠ 2 * i + 1 := by omega
          rw [if_neg hjm]
          by_cases hji : j = i
          · subst hji
            rw [if_pos rfl]
            exact h.2 (2 * j + 1) (by omega) hml (by omega) hj0
          · rw [if_neg hji]
            exact h.1 j hj0 hjl hpji
      · intro j hj0 hjl hpj _
        rw [iterSwap_getD a _ _ _ hia hma, iterSwap_getD a _ _ _ hia hma]
        have e1 : (2 * i + 1 - 1) / 2 = i := by omega
        rw [e1, if_neg (by omega), if_pos rfl, if_neg (by omega), if_neg (by omega)]
        have := h.1 j hj0 hjl (by omega)
        rw [hpj] at this
        exact this
    · rw [hm, if_neg (by omega)]
      have hia : i < a.length := by omega
      have hma : 2 * i + 2 < a.length := by omega
      apply ih _ _ (by rw [iterSwap_length]; exact hlen) hml (by omega)
      constructor
      · intro j hj0 hjl hpj
        rw [iterSwap_getD a _ _ _ hia hma, iterSwap_getD a _ _ _ hia hma]
        have hjj : (j - 1) / 2 < j := by omega
        rw [if_neg hpj]
        by_cases hpji : (j - 1) / 2 = i
        · rw [if_pos hpji]
          have : j = 2 * i + 1 ∨ j = 2 * i + 2 := by omega
          rcases this with e | e
          · subst e
            rw [if_neg (by omega), if_neg (by omega)]
            exact hsib
          · subst e
            rw [if_pos rfl]
            exact hc.asymm _ _ hcm
        · rw [if_neg hpji]
          have hjm : j ≠ 2 * i + 2 := by omega
          rw [if_neg hjm]
          by_cases hji : j = i
          · subst hji
            rw [if_pos rfl]
            exact h.2 (2 * j + 2) (by omega) hml (by omega) hj0
          · rw [if_neg hji]
            exact h.1 j hj0 hjl hpji
      · intro j hj0 hjl hpj _
        rw [iterSwap_getD a _ _ _ hia hma, iterSwap_getD a _ _ _ hia hma]
        have e1 : (2 * i + 2 - 1) / 2 = i := by omega
        rw [e1, if_neg (by omega), if_pos rfl, if_neg (by omega), if_neg (by omega)]
        have := h.1 j hj0 hjl (by omega)
        rw [hpj] at this
        exact this

theorem pqPush_length (comp : Int → Int → Bool) (c : List Int) (x : Int) :
    (pqPush comp c x).length = c.length + 1 := by
  simp [pqPush, pushHeap, siftUp_length]

theorem pqPush_perm (comp : Int → Int → Bool) (c : List Int) (x : Int) :
    (pqPush comp c x).Perm (c ++ [x]) := by
  unfold pqPush pushHeap
  exact siftUp_perm comp _ _ _ (by simp)

theorem isHeap_congr {comp : Int → Int → Bool} {a b : List Int} {len : Nat}
    (hab : ∀ k, k < len → b.getD k 0 = a.getD k 0) (h : IsHeap comp a len) :
    IsHeap comp b len := by
  intro j hj0 hjl
  rw [hab j hjl, hab _ (by omega)]
  exact h j hj0 hjl

theorem getD_append_left (c : List Int) (x : Int) (k : Nat) (hk : k < c.length) :
    (c ++ [x]).getD k 0 = c.getD k 0 := by
  simp [List.getElem?_append_left hk]

theorem pqPush_isHeap {comp : Int → Int → Bool} (hc : StrictWeak comp) (c : List Int) (x : Int)
    (h : IsHeap comp c c.length) : IsHeap comp (pqPush comp c x) (c.length + 1) := by
  unfold pqPush pushHeap
  have hl : (c ++ [x]).length = c.length + 1 := by simp
  rw [← hl]
  apply siftUp_isHeap hc _ _ _ (by omega) (by omega)
  rw [hl]
  constructor
  · intro j hj0 hjl hji
    have hj : j < c.length := by omega
    rw [getD_append_left c x j hj, getD_append_left c x _ (by omega)]
    exact h j hj0 hj
  · intro j hj0 hjl hji _
    omega

theorem popHeap_length (comp : Int → Int → Bool) (c : List Int) :
    (popHeap comp c).length = c.length := by
  simp [popHeap, siftDown_length, iterSwap_length]

theorem popHeap_perm (comp : Int → Int → Bool) (c : List Int) : (popHeap comp c).Perm c := by
  unfold popHeap
  by_cases h : 2 ≤ c.length
  · exact (siftDown_perm comp _ _ _ _ (by rw [iterSwap_length]; omega) (by omega)).trans
      (iterSwap_perm c _ _ (by omega) (by omega))
  · match c, h with
    | [], _ => simp [siftDown, iterSwap]
    | [x], _ => simp [siftDown, iterSwap]
    | _ :: _ :: _, h => simp at h

theorem popHeap_getD_last (comp : Int → Int → Bool) (h : Int) (tl : List Int) :
    (popHeap comp (h :: tl)).getD tl.length 0 = h := by
  unfold popHeap
  cases tl with
  | nil => simp [siftDown, iterSwap]
  | cons y ys =>
    simp only [List.length_cons, Nat.add_sub_cancel]
    rw [siftDown_getD_of_le comp _ _ _ _ (by rw [iterSwap_length]; simp) (by omega) _ (le_refl _),
      iterSwap_getD _ _ _ _ (by simp) (by simp), if_pos rfl]
    simp

theorem popHeap_eq (comp : Int → Int → Bool) (h : Int) (tl : List Int) :
    popHeap comp (h :: tl) = pqPop comp (h :: tl) ++ [h] := by
  unfold pqPop
  have hlen := popHeap_length comp (h :: tl)
  have hne : popHeap comp (h :: tl) ≠ [] := by
    intro e; rw [e] at hlen; simp at hlen
  have hlast := popHeap_getD_last comp h tl
  conv_lhs => rw [← List.dropLast_concat_getLast hne]
  congr 2
  rw [List.getLast_eq_getElem]
  have hidx : (popHeap comp (h :: tl)).length - 1 = tl.length := by rw [hlen]; simp
  simp only [hidx]
  have hlt : tl.length < (popHeap comp (h :: tl)).length := by rw [hlen]; simp
  simpa [List.getElem?_eq_getElem hlt] using hlast

theorem pqPop_perm (comp : Int → Int → Bool) (h : Int) (tl : List Int) :
    (pqPop comp (h :: tl)).Perm tl := by
  have h1 := popHeap_perm comp (h :: tl)
  rw [popHeap_eq] at h1
  have h2 : (h :: pqPop comp (h :: tl)).Perm (h :: tl) :=
    (List.perm_append_singleton h _).symm.trans h1
  exact (List.perm_cons h).mp h2

theorem pqPop_length (comp : Int → Int → Bool) (h : Int) (tl : List Int) :
    (pqPop comp (h :: tl)).length = tl.length :=
  (pqPop_perm comp h tl).length_eq

theorem pqPop_isHeap {comp : Int → Int → Bool} (hc : StrictWeak comp) (h : Int) (tl : List Int)
    (hh : IsHeap comp (h :: tl) (tl.length + 1)) :
    IsHeap comp (pqPop comp (h :: tl)) tl.length := by
  have hd : ∀ k, k < tl.length →
      (pqPop comp (h :: tl)).getD k 0 = (popHeap comp (h :: tl)).getD k 0 := by
    intro k hk
    rw [popHeap_eq]
    exact (getD_append_left _ h k (by rw [pqPop_length]; exact hk)).symm
  apply isHeap_congr hd
  unfold popHeap
  simp only [List.length_cons, Nat.add_sub_cancel]
  cases htl : tl.length with
  | zero => intro j hj0 hjl; omega
  | succ m =>
    have hl : (h :: tl).length = m + 2 := by simp [htl]
    apply siftDown_isHeap hc _ _ _ _ (by rw [iterSwap_length, hl]; omega) (by omega) (by omega)
    constructor
    · intro j hj0 hjl hpj
      rw [iterSwap_getD _ _ _ _ (by omega) (by omega), iterSwap_getD _ _ _ _ (by omega) (by omega),
        if_neg (by omega), if_neg (by omega), if_neg (by omega), if_neg (by omega)]
      exact hh j hj0 (by omega)
    · intro j _ _ _ h0
      omega

theorem isHeap_root {comp : Int → Int → Bool} (hc : StrictWeak comp) (a : List Int)
    (h : IsHeap comp a a.length) (k : Nat) (hk : k < a.length) :
    comp (a.getD 0 0) (a.getD k 0) = false := by
  induction k using Nat.strong_induction_on with
  | _ k ih =>
    by_cases hk0 : k = 0
    · subst hk0; exact hc.irrefl _
    · exact hc.ntrans _ _ _ (ih ((k - 1) / 2) (by omega) (by omega)) (h k (by omega) hk)

theorem isHeap_head {comp : Int → Int → Bool} (hc : StrictWeak comp) (h : Int) (tl : List Int)
    (hh : IsHeap comp (h :: tl) (tl.length + 1)) (x : Int) (hx : x ∈ h :: tl) :
    comp h x = false := by
  obtain ⟨k, hk, rfl⟩ := List.getElem_of_mem hx
  have := isHeap_root hc (h :: tl) hh k hk
  simpa [List.getElem?_eq_getElem hk] using this

theorem Tester.testPop_eq (x : Int) (t : Tester) : t.testPop x = some (t.testPopT x) := by
  obtain ⟨k, d⟩ := t
  cases d with
  | nil => cases k <;> rfl
  | cons v rest => cases k <;> rfl

theorem popLoop_inv (x : Int) (ps : List (Tester × Bool)) (k : Nat) (hk : k ≤ ps.length) :
    ∃ s, (List.range k).foldlM (Engine.testPopAt x) (ofPairs ps) = some s ∧
      PopLoopInv x ps k s := by
  induction k with
  | zero =>
    refine ⟨ofPairs ps, rfl, ?_, ?_⟩
    · intro j; simp [ofPairs]
    · intro j; simp [ofPairs]
  | succ k ih =>
    obtain ⟨s, hs, hT, hV⟩ := ih (by omega)
    have hklt : k < ps.length := by omega
    rw [List.range_succ, List.foldlM_append, hs]
    simp only [Option.bind_eq_bind, Option.some_bind, List.foldlM_cons, List.foldlM_nil,
      Option.pure_def, Option.bind_some]
    have hTk : s.testers_[k]? = some ps[k].1 := by
      rw [hT k, if_neg (by omega), List.getElem?_eq_getElem hklt]; rfl
    have hVk : s.isValid_[k]? = some ps[k].2 := by
      rw [hV k, if_neg (by omega), List.getElem?_eq_getElem hklt]; rfl
    have hVlen : k < s.isValid_.length := by
      by_contra hcon
      rw [List.getElem?_eq_none (by omega)] at hVk
      exact absurd hVk (by simp)
    unfold Engine.testPopAt
    rw [hTk]
    simp only [Tester.testPop_eq]
    by_cases hok : (ps[k].1.testPopT x).1 = true
    · rw [if_pos hok]
      refine ⟨_, rfl, ?_, ?_⟩
      · intro j
        simp only [List.getElem?_set]
        by_cases hjk : k = j
        · subst hjk
          have hTlen : k < s.testers_.length := by
            by_contra hcon
            rw [List.getElem?_eq_none (by omega)] at hTk
            exact absurd hTk (by simp)
          simp [hTlen, List.getElem?_eq_getElem hklt]
        · rw [if_neg hjk, hT j]
          by_cases hj : j < k
          · rw [if_pos hj, if_pos (by omega)]
          · rw [if_neg hj, if_neg (by omega)]
      · intro j
        rw [hV j]
        by_cases hjk : k = j
        · subst hjk
          simp [List.getElem?_eq_getElem hklt, hok]
        · by_cases hj : j < k
          · rw [if_pos hj, if_pos (by omega)]
          · rw [if_neg hj, if_neg (by omega)]
    · rw [if_neg hok, if_pos hVlen]
      refine ⟨_, rfl, ?_, ?_⟩
      · intro j
        simp only [List.getElem?_set]
        by_cases hjk : k = j
        · subst hjk
          have hTlen : k < s.testers_.length := by
            by_contra hcon
            rw [List.getElem?_eq_none (by omega)] at hTk
            exact absurd hTk (by simp)
          simp [hTlen, List.getElem?_eq_getElem hklt]
        · rw [if_neg hjk, hT j]
          by_cases hj : j < k
          · rw [if_pos hj, if_pos (by omega)]
          · rw [if_neg hj, if_neg (by omega)]
      · intro j
        simp only [List.getElem?_set]
        by_cases hjk : k = j
        · subst hjk
          simp at hok
          simp [hVlen, List.getElem?_eq_getElem hklt, hok]
        · rw [if_neg hjk, hV j]
          by_cases hj : j < k
          · rw [if_pos hj, if_pos (by omega)]
          · rw [if_neg hj, if_neg (by omega)]

theorem testPopAll_ofPairs (x : Int) (ps : List (Tester × Bool)) :
    Engine.testPopAll x (ofPairs ps) = some (ofPairs (ps.map (popPair x))) := by
  obtain ⟨s, hs, hT, hV⟩ := popLoop_inv x ps ps.length (le_refl _)
  unfold Engine.testPopAll
  have hl : (ofPairs ps).testers_.length = ps.length := by simp [ofPairs]
  rw [hl, hs]
  congr 1
  obtain ⟨ts, vs⟩ := s
  simp only [ofPairs, List.map_map, Engine.mk.injEq]
  constructor
  · apply List.ext_getElem?
    intro j
    rw [hT j, List.getElem?_map]
    by_cases hj : j < ps.length
    · rw [if_pos hj]; rfl
    · rw [if_neg hj, List.getElem?_eq_none (by omega)]; rfl
  · apply List.ext_getElem?
    intro j
    rw [hV j, List.getElem?_map]
    by_cases hj : j < ps.length
    · rw [if_pos hj]; rfl
    · rw [if_neg hj, List.getElem?_eq_none (by omega)]; rfl

theorem zip_fst_snd (ps : List (Tester × Bool)) :
    (ps.map Prod.fst).zip (ps.map Prod.snd) = ps := by
  induction ps with
  | nil => rfl
  | cons p ps ih => simp [ih]

theorem validNames_ofPairs (ps : List (Tester × Bool)) :
    validNames (ofPairs ps) = pairNames ps := by
  simp [validNames, ofPairs, pairNames, zip_fst_snd]

theorem pairNames_append (ps qs : List (Tester × Bool)) :
    pairNames (ps ++ qs) = pairNames ps ++ pairNames qs := by
  simp [pairNames]

theorem collectLoop (ps : List (Tester × Bool)) (k : Nat) (hk : k ≤ ps.length) :
    (List.range k).foldlM (Engine.collectAt (ofPairs ps)) [] = some (pairNames (ps.take k)) := by
  induction k with
  | zero => rfl
  | succ k ih =>
    have hklt : k < ps.length := by omega
    rw [List.range_succ, List.foldlM_append, ih (by omega)]
    simp only [Option.bind_eq_bind, Option.some_bind, List.foldlM_cons, List.foldlM_nil,
      Option.pure_def, Option.bind_some]
    rw [List.take_succ, pairNames_append, List.getElem?_eq_getElem hklt]
    unfold Engine.collectAt
    simp only [ofPairs, List.getElem?_map, List.getElem?_eq_getElem hklt, Option.map_some']
    cases hv : ps[k].2
    · simp [pairNames, hv]
    · simp [pairNames, hv]

theorem buildResult_ofPairs (ps : List (Tester × Bool)) (b : Bool) :
    Engine.buildResult (ofPairs ps) b = some (resultOf b (pairNames ps)) := by
  unfold Engine.buildResult
  have hl : (ofPairs ps).testers_.length = ps.length := by simp [ofPairs]
  rw [hl, collectLoop ps ps.length (le_refl _), List.take_length]
  simp only [resultOf]
  split <;> [rfl; (split <;> rfl)]

theorem Tester.push_kind (v : Int) (t : Tester) : (t.push v).kind = t.kind := by
  obtain ⟨k, d⟩ := t
  cases k <;> rfl

theorem Tester.push_length (v : Int) (t : Tester) :
    (t.push v).data_.length = t.data_.length + 1 := by
  obtain ⟨k, d⟩ := t
  cases k <;> simp [Tester.push, pqPush_length]

theorem Tester.testPopT_kind (x : Int) (t : Tester) : (t.testPopT x).2.kind = t.kind := by
  obtain ⟨k, d⟩ := t
  cases d with
  | nil => cases k <;> rfl
  | cons v rest => cases k <;> rfl

theorem Tester.testPopT_length (x : Int) (t : Tester) :
    (t.testPopT x).2.data_.length = t.data_.length - 1 := by
  obtain ⟨k, d⟩ := t
  cases d with
  | nil => cases k <;> rfl
  | cons v rest => cases k <;> simp [Tester.testPopT, pqPop_length]

theorem Tester.empty_iff (t : Tester) : t.empty = true ↔ t.data_.length = 0 := by
  simp [Tester.empty, List.isEmpty_iff]

theorem simStep_length (p : Tester × Bool) (n : Nat) (b : Bool) (o : Int × Int)
    (h : p.1.data_.length = n) :
    (simStep p o).1.data_.length = (countStep (n, b) o).1 := by
  unfold simStep countStep
  by_cases h1 : o.1 = OP_PUSH
  · simp [h1, Tester.push_length, h]
  · rw [if_neg h1, if_neg h1]
    by_cases h2 : o.1 = OP_POP
    · rw [if_pos h2, if_pos h2]
      cases n with
      | zero =>
        have : p.1.empty = true := (Tester.empty_iff _).mpr h
        simp [this, h]
      | succ m =>
        have : ¬ p.1.empty = true := by rw [Tester.empty_iff]; omega
        simp [this, Tester.testPopT_length, h]
    · simp [h2, h]

theorem identifyStep_ofPairs (ps : List (Tester × Bool)) (n : Nat) (b : Bool) (o : Int × Int)
    (hne : ps ≠ []) (hl : Lockstep ps n) :
    Engine.identifyStep (ofPairs ps, b) o =
      some (ofPairs (ps.map (fun p => simStep p o)), (countStep (n, b) o).2) := by
  unfold Engine.identifyStep
  by_cases h1 : o.1 = OP_PUSH
  · simp only [h1, if_true, countStep, simStep]
    simp [Engine.pushAll, ofPairs, Function.comp_def]
  · simp only [if_neg h1]
    by_cases h2 : o.1 = OP_POP
    · simp only [if_pos h2]
      have hpp : ¬ (OP_POP = OP_PUSH) := by decide
      obtain ⟨p0, rest, rfl⟩ := List.exists_cons_of_ne_nil hne
      have h0 : (ofPairs (p0 :: rest)).testers_[0]? = some p0.1 := by simp [ofPairs]
      simp only [h0]
      cases n with
      | zero =>
        have hall : ∀ p ∈ p0 :: rest, simStep p o = p := by
          intro p hp
          have : p.1.empty = true := (Tester.empty_iff _).mpr (hl p hp)
          simp [simStep, h2, hpp, this]
        have hp0 : p0.1.empty = true := (Tester.empty_iff _).mpr (hl p0 (by simp))
        rw [if_pos hp0]
        have hmap : (p0 :: rest).map (fun p => simStep p o) = p0 :: rest := by
          conv_rhs => rw [← List.map_id (p0 :: rest)]
          exact List.map_congr_left hall
        rw [hmap]
        simp [countStep, h2, hpp]
      | succ m =>
        have hall : ∀ p ∈ p0 :: rest, simStep p o = popPair o.2 p := by
          intro p hp
          have : ¬ p.1.empty = true := by rw [Tester.empty_iff, hl p hp]; omega
          simp [simStep, h2, hpp, this, popPair]
        have hp0 : ¬ p0.1.empty = true := by
          rw [Tester.empty_iff, hl p0 (by simp)]; omega
        rw [if_neg hp0, testPopAll_ofPairs]
        simp only
        rw [List.map_congr_left hall]
        simp [countStep, h2, hpp]
    · simp only [if_neg h2]
      have hall : ∀ p ∈ ps, simStep p o = p := by
        intro p _
        simp [simStep, h1, h2]
      have hmap : ps.map (fun p => simStep p o) = ps := by
        conv_rhs => rw [← List.map_id ps]
        exact List.map_congr_left hall
      rw [hmap]
      simp [countStep, h1, h2]

theorem lockstep_step (ps : List (Tester × Bool)) (n : Nat) (b : Bool) (o : Int × Int)
    (hl : Lockstep ps n) : Lockstep (ps.map (fun p => simStep p o)) (countStep (n, b) o).1 := by
  intro q hq
  obtain ⟨p, hp, rfl⟩ := List.mem_map.mp hq
  exact simStep_length p n b o (hl p hp)

theorem identifyLoop_ofPairs (ops : List (Int × Int)) (ps : List (Tester × Bool)) (n : Nat)
    (b : Bool) (hne : ps ≠ []) (hl : Lockstep ps n) :
    Engine.identifyLoop (ofPairs ps, b) ops =
        some (ofPairs (ps.map (fun p => simRun p ops)), (countRun (n, b) ops).2) ∧
      Lockstep (ps.map (fun p => simRun p ops)) (countRun (n, b) ops).1 := by
  induction ops generalizing ps n b with
  | nil =>
    simp only [Engine.identifyLoop, List.foldlM_nil, simRun, countRun, List.foldl_nil,
      List.map_id']
    exact ⟨rfl, hl⟩
  | cons o rest ih =>
    have hstep := identifyStep_ofPairs ps n b o hne hl
    have hl' := lockstep_step ps n b o hl
    have hne' : ps.map (fun p => simStep p o) ≠ [] := by simpa using hne
    have := ih (ps.map (fun p => simStep p o)) (countStep (n, b) o).1 (countStep (n, b) o).2
      hne' hl'
    simp only [Engine.identifyLoop, List.foldlM_cons, hstep, Option.bind_eq_bind,
      Option.some_bind]
    simp only [Engine.identifyLoop] at this
    simp only [simRun, countRun, List.foldl_cons, List.map_map, Function.comp_def] at this ⊢
    exact this

theorem registerAll_foldl (ks : List TesterType) (ps : List (Tester × Bool)) :
    ks.foldl (fun e k => Engine.registerStructure k e) (ofPairs ps) =
      ofPairs (ps ++ fresh ks) := by
  induction ks generalizing ps with
  | nil => simp [fresh]
  | cons k ks ih =>
    have h : Engine.registerStructure k (ofPairs ps) =
        ofPairs (ps ++ [({ kind := k, data_ := [] }, true)]) := by
      simp [Engine.registerStructure, ofPairs]
    rw [List.foldl_cons, h, ih]
    simp [fresh]

theorem registerAll_eq (ks : List TesterType) : registerAll ks = ofPairs (fresh ks) := by
  have := registerAll_foldl ks []
  simpa [registerAll, Engine.new, ofPairs] using this

theorem resetAll_of_shape (ks : List TesterType) (e : Engine) (h : HasShape ks e) :
    Engine.resetAll e = ofPairs (fresh ks) := by
  obtain ⟨ts, vs⟩ := e
  obtain ⟨h1, h2⟩ := h
  simp only at h1 h2
  subst h1
  rw [List.length_map] at h2
  simp only [Engine.resetAll, ofPairs, fresh, List.map_map, Engine.mk.injEq]
  constructor
  · apply List.map_congr_left
    intro t _
    rfl
  · apply List.ext_getElem?
    intro j
    simp only [List.getElem?_map, Function.comp_def]
    by_cases hj : j < vs.length
    · have hj2 : j < ts.length := by omega
      simp [List.getElem?_eq_getElem hj, List.getElem?_eq_getElem hj2]
    · have hj2 : ¬ j < ts.length := by omega
      simp [List.getElem?_eq_none (Nat.le_of_not_lt hj), List.getElem?_eq_none (Nat.le_of_not_lt hj2)]

theorem hasShape_registerAll (ks : List TesterType) : HasShape ks (registerAll ks) := by
  rw [registerAll_eq]
  simp [HasShape, ofPairs, fresh, Function.comp_def]

theorem simStep_kind (p : Tester × Bool) (o : Int × Int) : (simStep p o).1.kind = p.1.kind := by
  unfold simStep
  split
  · exact Tester.push_kind _ _
  · split
    · split
      · rfl
      · exact Tester.testPopT_kind _ _
    · rfl

theorem simRun_kind (ops : List (Int × Int)) (p : Tester × Bool) :
    (simRun p ops).1.kind = p.1.kind := by
  induction ops generalizing p with
  | nil => rfl
  | cons o rest ih =>
    simp only [simRun, List.foldl_cons] at ih ⊢
    rw [ih, simStep_kind]

theorem hasShape_final (ks : List TesterType) (ops : List (Int × Int)) :
    HasShape ks (ofPairs (finalPairs ks ops)) := by
  constructor
  · simp only [ofPairs, finalPairs, fresh, List.map_map]
    conv_rhs => rw [← List.map_id ks]
    apply List.map_congr_left
    intro k _
    simp [Function.comp_def, simRun_kind]
  · simp [ofPairs, finalPairs, fresh]

theorem lockstep_fresh (ks : List TesterType) : Lockstep (fresh ks) 0 := by
  intro p hp
  simp only [fresh, List.mem_map] at hp
  obtain ⟨k, _, rfl⟩ := hp
  rfl

theorem fresh_ne_nil (ks : List TesterType) (h : ks ≠ []) : fresh ks ≠ [] := by
  simpa [fresh] using h

/-- The loop of `identify` on an engine of shape `ks`, `ks` non-empty. -/
theorem identifyLoop_of_shape (ks : List TesterType) (hks : ks ≠ []) (e : Engine)
    (h : HasShape ks e) (ops : List (Int × Int)) :
    Engine.identifyLoop (Engine.resetAll e, false) ops =
      some (ofPairs (finalPairs ks ops), (countRun (0, false) ops).2) := by
  rw [resetAll_of_shape ks e h]
  exact (identifyLoop_ofPairs ops (fresh ks) 0 false (fresh_ne_nil ks hks) (lockstep_fresh ks)).1

/-- The call `identify` on an engine of shape `ks`, `ks` non-empty. -/
theorem identify_of_shape (ks : List TesterType) (hks : ks ≠ []) (e : Engine)
    (h : HasShape ks e) (ops : List (Int × Int)) :
    Engine.identify e ops =
      some (resultOf (countRun (0, false) ops).2 (pairNames (finalPairs ks ops)),
        ofPairs (finalPairs ks ops)) := by
  unfold Engine.identify
  rw [identifyLoop_of_shape ks hks e h ops]
  simp only [buildResult_ofPairs]

theorem countRun_append (s : Nat × Bool) (p q : List (Int × Int)) :
    countRun s (p ++ q) = countRun (countRun s p) q := by
  simp [countRun, List.foldl_append]

theorem simRun_append (s : Tester × Bool) (p q : List (Int × Int)) :
    simRun s (p ++ q) = simRun (simRun s p) q := by
  simp [simRun, List.foldl_append]

theorem countRun_flag_true (ops : List (Int × Int)) (n : Nat) :
    (countRun (n, true) ops).2 = true := by
  induction ops generalizing n with
  | nil => rfl
  | cons o rest ih =>
    simp only [countRun, List.foldl_cons] at ih ⊢
    unfold countStep
    split
    · exact ih _
    · split
      · cases n with
        | zero => exact ih _
        | succ m => exact ih _
      · exact ih _

theorem simRun_flag_false (ops : List (Int × Int)) (t : Tester) :
    (simRun (t, false) ops).2 = false := by
  induction ops generalizing t with
  | nil => rfl
  | cons o rest ih =>
    simp only [simRun, List.foldl_cons] at ih ⊢
    unfold simStep
    split
    · exact ih _
    · split
      · split
        · exact ih _
        · simp only [Bool.false_and]; exact ih _
      · exact ih _

theorem resultOf_true (found : List String) :
    resultOf true found = { status := .IMPOSSIBLE, matchingStructures := [] } := by
  simp [resultOf]

theorem resultOf_nil (b : Bool) :
    resultOf b [] = { status := .IMPOSSIBLE, matchingStructures := [] } := by
  simp [resultOf]

theorem countStep_pop_zero (b : Bool) (v : Int) : countStep (0, b) (OP_POP, v) = (0, true) := by
  simp [countStep, OP_POP, OP_PUSH]

theorem lockstep_head (ps : List (Tester × Bool)) (n : Nat) (hl : Lockstep ps n) (t0 : Tester)
    (h0 : (ofPairs ps).testers_[0]? = some t0) : t0.data_.length = n := by
  cases ps with
  | nil => simp [ofPairs] at h0
  | cons p rest =>
    simp only [ofPairs, List.map_cons, List.getElem?_cons_zero, Option.some.injEq] at h0
    subst h0
    exact hl p (by simp)

theorem pairNames_length (ps : List (Tester × Bool)) :
    (pairNames ps).length = (ps.map Prod.snd).count true := by
  induction ps with
  | nil => rfl
  | cons p ps ih =>
    obtain ⟨t, v⟩ := p
    cases v
    · simpa [pairNames, List.filter_cons] using ih
    · simp only [pairNames, List.filter_cons, if_true, List.map_cons, List.length_cons,
        List.count_cons_self] at ih ⊢
      rw [ih]

/-- The case analysis of `buildResult`, on an engine given by its pairs. -/
theorem resultOf_spec (b : Bool) (ps : List (Tester × Bool)) :
    (validNames (ofPairs ps)).length = (ofPairs ps).isValid_.count true ∧
    ((b = true ∨ (ofPairs ps).isValid_.count true = 0) →
      resultOf b (pairNames ps) = { status := .IMPOSSIBLE, matchingStructures := [] }) ∧
    (b = false → 2 ≤ (ofPairs ps).isValid_.count true →
      resultOf b (pairNames ps) =
        { status := .UNCERTAIN, matchingStructures := validNames (ofPairs ps) }) ∧
    (b = false → (ofPairs ps).isValid_.count true = 1 →
      resultOf b (pairNames ps) =
        { status := .IDENTIFIED, matchingStructures := validNames (ofPairs ps) }) ∧
    ((resultOf b (pairNames ps)).status = .IDENTIFIED →
      (resultOf b (pairNames ps)).matchingStructures.length = 1) ∧
    ((resultOf b (pairNames ps)).status = .UNCERTAIN →
      2 ≤ (resultOf b (pairNames ps)).matchingStructures.length) ∧
    ((resultOf b (pairNames ps)).isIdentified = true ↔
      (resultOf b (pairNames ps)).status = .IDENTIFIED) := by
  have hlen := pairNames_length ps
  rw [validNames_ofPairs]
  have hv : (ofPairs ps).isValid_ = ps.map Prod.snd := rfl
  rw [hv, ← hlen]
  generalize pairNames ps = found
  unfold resultOf
  cases b <;> cases found with
  | nil => simp [Result.isIdentified]
  | cons x xs =>
    cases xs with
    | nil => simp [Result.isIdentified]
    | cons y ys => simp [Result.isIdentified]

theorem identifyLoop_nil_no_pop (ops : List (Int × Int)) (b : Bool)
    (h : ∀ o ∈ ops, o.1 ≠ OP_POP) :
    Engine.identifyLoop (ofPairs [], b) ops = some (ofPairs [], b) := by
  induction ops with
  | nil => rfl
  | cons o rest ih =>
    have ho : o.1 ≠ OP_POP := h o (by simp)
    have hstep : Engine.identifyStep (ofPairs [], b) o = some (ofPairs [], b) := by
      unfold Engine.identifyStep
      by_cases h1 : o.1 = OP_PUSH
      · simp [h1, Engine.pushAll, ofPairs]
      · simp [h1, ho]
    simp only [Engine.identifyLoop, List.foldlM_cons, hstep, Option.bind_eq_bind,
      Option.some_bind]
    exact ih (fun o' ho' => h o' (by simp [ho']))

theorem identifyLoop_nil_pop (ops : List (Int × Int)) (b : Bool)
    (h : ∃ o ∈ ops, o.1 = OP_POP) :
    Engine.identifyLoop (ofPairs [], b) ops = none := by
  induction ops with
  | nil => simp at h
  | cons o rest ih =>
    by_cases ho : o.1 = OP_POP
    · have hstep : Engine.identifyStep (ofPairs [], b) o = none := by
        unfold Engine.identifyStep
        have hpp : ¬ (OP_POP = OP_PUSH) := by decide
        simp [ho, hpp, ofPairs]
      simp only [Engine.identifyLoop, List.foldlM_cons, hstep, Option.bind_eq_bind,
        Option.none_bind]
    · have hstep : Engine.identifyStep (ofPairs [], b) o = some (ofPairs [], b) := by
        unfold Engine.identifyStep
        by_cases h1 : o.1 = OP_PUSH
        · simp [h1, Engine.pushAll, ofPairs]
        · simp [h1, ho]
      simp only [Engine.identifyLoop, List.foldlM_cons, hstep, Option.bind_eq_bind,
        Option.some_bind]
      apply ih
      obtain ⟨o', ho', hp⟩ := h
      rcases List.mem_cons.mp ho' with e | e
      · subst e; exact absurd hp ho
      · exact ⟨o', e, hp⟩

theorem identifyAll_shape (ks : List TesterType) (hks : ks ≠ [])
    (history : List (List (Int × Int))) (e : Engine) (h : HasShape ks e) :
    ∃ e1, identifyAll e history = some e1 ∧ HasShape ks e1 := by
  induction history generalizing e with
  | nil => exact ⟨e, rfl, h⟩
  | cons t rest ih =>
    unfold identifyAll
    rw [identify_of_shape ks hks e h t]
    exact ih _ (hasShape_final ks t)

theorem pairNames_fresh (ks : List TesterType) :
    pairNames (fresh ks) = (ofPairs (fresh ks)).testers_.map Tester.name := by
  simp [pairNames, fresh, ofPairs, List.filter_map, Function.comp_def]

theorem Tester.push_mem (v : Int) (t : Tester) (x : Int) :
    x ∈ (t.push v).data_ ↔ x = v ∨ x ∈ t.data_ := by
  obtain ⟨k, d⟩ := t
  cases k
  · simp [Tester.push]
  · simp [Tester.push, or_comm]
  · simp [Tester.push, (pqPush_perm stdLess d v).mem_iff, or_comm]
  · simp [Tester.push, (pqPush_perm stdGreater d v).mem_iff, or_comm]
  · simp [Tester.push, or_comm]

theorem Tester.testPopT_fst (x : Int) (t : Tester) (d : Int) (ds : List Int)
    (h : t.data_ = d :: ds) : (t.testPopT x).1 = decide (d = x) := by
  obtain ⟨k, dd⟩ := t
  simp only at h
  subst h
  cases k <;> rfl

theorem Tester.testPopT_perm (x : Int) (t : Tester) (d : Int) (ds : List Int)
    (h : t.data_ = d :: ds) : (t.testPopT x).2.data_.Perm ds := by
  obtain ⟨k, dd⟩ := t
  simp only at h
  subst h
  cases k
  · exact List.Perm.refl _
  · exact List.Perm.refl _
  · exact pqPop_perm stdLess d ds
  · exact pqPop_perm stdGreater d ds
  · exact List.Perm.refl _

theorem Tester.testPopT_mem (x : Int) (t : Tester) (y : Int)
    (h : y ∈ (t.testPopT x).2.data_) : y ∈ t.data_ := by
  cases hd : t.data_ with
  | nil =>
    obtain ⟨k, dd⟩ := t
    simp only at hd
    subst hd
    cases k <;> simp [Tester.testPopT] at h
  | cons d ds =>
    have := (Tester.testPopT_perm x t d ds hd).mem_iff.mp h
    exact List.mem_cons_of_mem _ this

theorem simStep_mem (p : Tester × Bool) (o : Int × Int) (y : Int)
    (h : y ∈ (simStep p o).1.data_) : y ∈ p.1.data_ ∨ (o.1 = OP_PUSH ∧ o.2 = y) := by
  unfold simStep at h
  split at h
  · next h1 =>
    rcases (Tester.push_mem _ _ _).mp h with e | e
    · exact Or.inr ⟨h1, e.symm⟩
    · exact Or.inl e
  · split at h
    · split at h
      · exact Or.inl h
      · exact Or.inl (Tester.testPopT_mem _ _ _ h)
    · exact Or.inl h

theorem simRun_mem (ops : List (Int × Int)) (p : Tester × Bool) (y : Int)
    (h : y ∈ (simRun p ops).1.data_) :
    y ∈ p.1.data_ ∨ ∃ o ∈ ops, o.1 = OP_PUSH ∧ o.2 = y := by
  induction ops generalizing p with
  | nil => exact Or.inl h
  | cons o rest ih =>
    simp only [simRun, List.foldl_cons] at ih h
    rcases ih _ h with e | ⟨o', ho', hp⟩
    · rcases simStep_mem p o y e with e' | e'
      · exact Or.inl e'
      · exact Or.inr ⟨o, by simp, e'⟩
    · exact Or.inr ⟨o', by simp [ho'], hp⟩

theorem pairNames_eq_nil (ps : List (Tester × Bool)) (h : ∀ p ∈ ps, p.2 = false) :
    pairNames ps = [] := by
  simp only [pairNames, List.map_eq_nil_iff, List.filter_eq_nil_iff]
  intro p hp
  simp [h p hp]

theorem int_max?_eq_some (xs : List Int) (a : Int) (h1 : a ∈ xs) (h2 : ∀ b ∈ xs, b ≤ a) :
    xs.max? = some a :=
  haveI : Std.Antisymm (fun (x1 x2 : Int) => x1 ≤ x2) :=
    ⟨fun h1 h2 => Int.le_antisymm h1 h2⟩
  (List.max?_eq_some_iff (fun x => le_refl x) (fun x y => max_choice x y)
    (fun _ _ _ => max_le_iff)).mpr ⟨h1, h2⟩

theorem int_min?_eq_some (xs : List Int) (a : Int) (h1 : a ∈ xs) (h2 : ∀ b ∈ xs, a ≤ b) :
    xs.min? = some a :=
  haveI : Std.Antisymm (fun (x1 x2 : Int) => x1 ≤ x2) :=
    ⟨fun h1 h2 => Int.le_antisymm h1 h2⟩
  (List.min?_eq_some_iff (fun x => le_refl x) (fun x y => min_choice x y)
    (fun _ _ _ => le_min_iff)).mpr ⟨h1, h2⟩

theorem represents_length (k : TesterType) (data held : List Int) (h : Represents k data held) :
    data.length = held.length := by
  cases k
  · simp only [Represents] at h; simp [h]
  · simp only [Represents] at h; simp [h]
  · exact h.1.length_eq
  · exact h.1.length_eq
  · simp only [Represents] at h; simp [h]

theorem represents_push (k : TesterType) (data held : List Int) (v : Int)
    (h : Represents k data held) :
    Represents k (Tester.push v { kind := k, data_ := data }).data_ (held ++ [v]) := by
  cases k
  · simp only [Represents] at h ⊢; simp [Tester.push, h]
  · simp only [Represents] at h ⊢; simp [Tester.push, h]
  · refine ⟨(pqPush_perm stdLess data v).trans (List.Perm.append_right _ h.1), ?_⟩
    simp only [Tester.push, pqPush_length]
    exact pqPush_isHeap stdLess_strictWeak data v h.2
  · refine ⟨(pqPush_perm stdGreater data v).trans (List.Perm.append_right _ h.1), ?_⟩
    simp only [Tester.push, pqPush_length]
    exact pqPush_isHeap stdGreater_strictWeak data v h.2
  · simp only [Represents] at h ⊢; simp [Tester.push, h]

theorem represents_next (k : TesterType) (x : Int) (xs held : List Int)
    (h : Represents k (x :: xs) held) : refNext k held = some x := by
  cases k
  · simp only [Represents] at h
    have : held = xs.reverse ++ [x] := by
      have := congrArg List.reverse h
      simpa using this.symm
    simp [refNext, this]
  · simp only [Represents] at h; simp [refNext, ← h]
  · apply int_max?_eq_some
    · exact h.1.mem_iff.mp (by simp)
    · intro b hb
      have := isHeap_head stdLess_strictWeak x xs (by simpa using h.2) b (h.1.mem_iff.mpr hb)
      simpa [stdLess] using this
  · apply int_min?_eq_some
    · exact h.1.mem_iff.mp (by simp)
    · intro b hb
      have := isHeap_head stdGreater_strictWeak x xs (by simpa using h.2) b (h.1.mem_iff.mpr hb)
      simpa [stdGreater] using this
  · simp only [Represents] at h; simp [refNext, ← h]

theorem represents_pop (k : TesterType) (x e : Int) (xs held : List Int)
    (h : Represents k (x :: xs) held) :
    Represents k (Tester.testPopT e { kind := k, data_ := x :: xs }).2.data_
      (refRemove k held) := by
  have hnext := represents_next k x xs held h
  cases k
  · simp only [Represents] at h ⊢
    have : held = xs.reverse ++ [x] := by
      have := congrArg List.reverse h
      simpa using this.symm
    simp [Tester.testPopT, refRemove, this]
  · simp only [Represents] at h ⊢; simp [Tester.testPopT, refRemove, ← h]
  · simp only [refNext] at hnext
    simp only [refRemove, hnext, Tester.testPopT]
    refine ⟨(pqPop_perm stdLess x xs).trans ?_, ?_⟩
    · have := h.1.erase x
      simpa using this
    · rw [pqPop_length]
      exact pqPop_isHeap stdLess_strictWeak x xs (by simpa using h.2)
  · simp only [refNext] at hnext
    simp only [refRemove, hnext, Tester.testPopT]
    refine ⟨(pqPop_perm stdGreater x xs).trans ?_, ?_⟩
    · have := h.1.erase x
      simpa using this
    · rw [pqPop_length]
      exact pqPop_isHeap stdGreater_strictWeak x xs (by simpa using h.2)
  · simp only [Represents] at h ⊢; simp [Tester.testPopT, refRemove, ← h]

/-- The validity flag a tester ends with is the consistency of the trace with
its reference discipline, provided no pop meets an empty structure. -/
theorem simRun_valid_eq_refConsistent (k : TesterType) (ops : List (Int × Int))
    (data held : List Int) (h : Represents k data held)
    (hg : noPopOnEmpty held.length ops = true) :
    (simRun ({ kind := k, data_ := data }, true) ops).2 = refConsistent k held ops := by
  induction ops generalizing data held with
  | nil => rfl
  | cons o rest ih =>
    simp only [simRun, List.foldl_cons] at ih ⊢
    unfold refConsistent
    unfold noPopOnEmpty at hg
    unfold simStep
    by_cases h1 : o.1 = OP_PUSH
    · simp only [if_pos h1] at hg ⊢
      have hr := represents_push k data held o.2 h
      have hk : (Tester.push o.2 { kind := k, data_ := data }) =
          { kind := k, data_ := (Tester.push o.2 { kind := k, data_ := data }).data_ } := by
        cases k <;> rfl
      rw [hk]
      exact ih _ _ hr (by simpa using hg)
    · simp only [if_neg h1] at hg ⊢
      by_cases h2 : o.1 = OP_POP
      · simp only [if_pos h2] at hg ⊢
        have hlen := represents_length k data held h
        cases data with
        | nil =>
          have : held.length = 0 := by simpa using hlen.symm
          rw [this] at hg
          simp at hg
        | cons x xs =>
          have hnext := represents_next k x xs held h
          have hr := represents_pop k x o.2 xs held h
          rw [hnext]
          have hne : ¬ (Tester.empty { kind := k, data_ := x :: xs }) = true := by
            simp [Tester.empty]
          simp only [if_neg hne]
          have hfst := Tester.testPopT_fst o.2 { kind := k, data_ := x :: xs } x xs rfl
          rw [hfst]
          have hk : (Tester.testPopT o.2 { kind := k, data_ := x :: xs }).2 =
              { kind := k,
                data_ := (Tester.testPopT o.2 { kind := k, data_ := x :: xs }).2.data_ } := by
            cases k <;> rfl
          rw [hk]
          have hg' : noPopOnEmpty (refRemove k held).length rest = true := by
            have hl2 := represents_length k _ _ hr
            have hl3 := Tester.testPopT_length o.2 { kind := k, data_ := x :: xs }
            simp only [List.length_cons, Nat.add_sub_cancel] at hl3
            rw [← hl2, hl3]
            have : held.length = xs.length + 1 := by simpa using hlen.symm
            rw [this] at hg
            simpa using hg
          by_cases hx : x = o.2
          · have hdec : decide (x = o.2) = true := by simp [hx]
            rw [hdec, Bool.true_and]
            exact ih _ _ hr hg'
          · have hdec : decide (x = o.2) = false := by simp [hx]
            rw [hdec, Bool.false_and, Bool.and_false]
            exact simRun_flag_false rest _
      · simp only [if_neg h2] at hg ⊢
        exact ih _ _ h hg

theorem filter_unique {α : Type} (P : α → Bool) (l : List α) (i : Nat) (a : α)
    (hi : l[i]? = some a) (hP : P a = true)
    (hothers : ∀ (j : Nat) (b : α), l[j]? = some b → j ≠ i → P b = false) :
    l.filter P = [a] := by
  induction l generalizing i with
  | nil => simp at hi
  | cons x xs ih =>
    cases i with
    | zero =>
      simp only [List.getElem?_cons_zero, Option.some.injEq] at hi
      subst hi
      have hrest : xs.filter P = [] := by
        rw [List.filter_eq_nil_iff]
        intro b hb
        obtain ⟨j, hj, rfl⟩ := List.getElem_of_mem hb
        have := hothers (j + 1) xs[j] (by simp [List.getElem?_eq_getElem hj]) (by omega)
        simp [this]
      simp [List.filter_cons, hP, hrest]
    | succ i' =>
      have hx : P x = false := hothers 0 x (by simp) (by omega)
      simp only [List.getElem?_cons_succ] at hi
      have := ih i' hi (fun j b hj hne => hothers (j + 1) b (by simpa using hj) (by omega))
      simp [List.filter_cons, hx, this]

theorem countRun_flag_of_guard (ops : List (Int × Int)) (n : Nat) (b : Bool)
    (h : noPopOnEmpty n ops = true) : (countRun (n, b) ops).2 = b := by
  induction ops generalizing n with
  | nil => rfl
  | cons o rest ih =>
    simp only [countRun, List.foldl_cons] at ih ⊢
    unfold noPopOnEmpty at h
    unfold countStep
    by_cases h1 : o.1 = OP_PUSH
    · simp only [if_pos h1] at h ⊢
      exact ih _ h
    · simp only [if_neg h1] at h ⊢
      by_cases h2 : o.1 = OP_POP
      · simp only [if_pos h2] at h ⊢
        cases n with
        | zero => simp at h
        | succ m => exact ih _ h
      · simp only [if_neg h2] at h ⊢
        exact ih _ h

theorem Tester.name_eq_of_kind (t : Tester) (k : TesterType) (h : t.kind = k) :
    t.name = Tester.name { kind := k, data_ := [] } := by
  obtain ⟨k', d⟩ := t
  simp only at h
  subst h
  cases k' <;> rfl

theorem pairNames_final (ks : List TesterType) (ops : List (Int × Int)) :
    pairNames (finalPairs ks ops) =
      (ks.filter (fun k => (simRun ({ kind := k, data_ := [] }, true) ops).2)).map
        (fun k => Tester.name { kind := k, data_ := [] }) := by
  simp only [pairNames, finalPairs, fresh, List.map_map, List.filter_map]
  apply List.map_congr_left
  intro k _
  simp only [Function.comp_def]
  exact Tester.name_eq_of_kind _ k (simRun_kind ops _)

theorem Tester.heapInv_reset (t : Tester) : t.reset.HeapInv := by
  obtain ⟨k, d⟩ := t
  cases k <;> simp [Tester.reset, Tester.HeapInv, IsHeap]

theorem Tester.heapInv_push (v : Int) (t : Tester) (h : t.HeapInv) : (t.push v).HeapInv := by
  obtain ⟨k, d⟩ := t
  cases k
  · trivial
  · trivial
  · simp only [Tester.HeapInv, Tester.push, pqPush_length] at h ⊢
    exact pqPush_isHeap stdLess_strictWeak d v h
  · simp only [Tester.HeapInv, Tester.push, pqPush_length] at h ⊢
    exact pqPush_isHeap stdGreater_strictWeak d v h
  · trivial

theorem Tester.heapInv_testPopT (x : Int) (t : Tester) (h : t.HeapInv) :
    (t.testPopT x).2.HeapInv := by
  obtain ⟨k, d⟩ := t
  cases d with
  | nil => cases k <;> exact h
  | cons y ys =>
    cases k
    · trivial
    · trivial
    · simp only [Tester.HeapInv, Tester.testPopT, pqPop_length] at h ⊢
      exact pqPop_isHeap stdLess_strictWeak y ys (by simpa using h)
    · simp only [Tester.HeapInv, Tester.testPopT, pqPop_length] at h ⊢
      exact pqPop_isHeap stdGreater_strictWeak y ys (by simpa using h)
    · trivial

theorem Tester.pop_eq (t : Tester) (y : Int) (ys : List Int) (h : t.data_ = y :: ys) :
    t.pop = some (t.testPopT 0).2 := by
  obtain ⟨k, d⟩ := t
  simp only at h
  subst h
  cases k <;> rfl

theorem Tester.pop_eq_none (t : Tester) (h : t.data_ = []) : t.pop = none := by
  obtain ⟨k, d⟩ := t
  simp only at h
  subst h
  rfl

theorem Tester.testPopT_snd_indep (x y : Int) (t : Tester) :
    (t.testPopT x).2 = (t.testPopT y).2 := by
  obtain ⟨k, d⟩ := t
  cases d with
  | nil => cases k <;> rfl
  | cons z zs => cases k <;> rfl

theorem Tester.applyCall_inv (t t' : Tester) (c : TesterCall) (flags : List Bool)
    (h : t.applyCall c = some (t', flags)) (hinv : t.HeapInv) :
    t'.HeapInv ∧ t'.kind = t.kind := by
  cases c with
  | push v =>
    simp only [Tester.applyCall, Option.some.injEq, Prod.mk.injEq] at h
    rw [← h.1]
    exact ⟨Tester.heapInv_push v t hinv, Tester.push_kind v t⟩
  | pop =>
    cases hd : t.data_ with
    | nil => simp [Tester.applyCall, Tester.pop_eq_none t hd] at h
    | cons y ys =>
      simp only [Tester.applyCall, Tester.pop_eq t y ys hd, Option.some.injEq,
        Prod.mk.injEq] at h
      rw [← h.1]
      exact ⟨Tester.heapInv_testPopT 0 t hinv, Tester.testPopT_kind 0 t⟩
  | testPop x =>
    simp only [Tester.applyCall, Tester.testPop_eq, Option.some.injEq, Prod.mk.injEq] at h
    rw [← h.1]
    exact ⟨Tester.heapInv_testPopT x t hinv, Tester.testPopT_kind x t⟩

theorem Tester.applyCalls_inv (calls : List TesterCall) (t t' : Tester) (flags : List Bool)
    (h : t.applyCalls calls = some (t', flags)) (hinv : t.HeapInv) :
    t'.HeapInv ∧ t'.kind = t.kind := by
  induction calls generalizing t flags with
  | nil =>
    simp only [Tester.applyCalls, Option.some.injEq, Prod.mk.injEq] at h
    rw [← h.1]
    exact ⟨hinv, rfl⟩
  | cons c rest ih =>
    unfold Tester.applyCalls at h
    cases h1 : t.applyCall c with
    | none => simp [h1] at h
    | some r1 =>
      obtain ⟨t1, f1⟩ := r1
      simp only [h1] at h
      cases h2 : Tester.applyCalls t1 rest with
      | none => simp [h2] at h
      | some r2 =>
        obtain ⟨t2, f2⟩ := r2
        simp only [h2, Option.some.injEq, Prod.mk.injEq] at h
        have hs := Tester.applyCall_inv t t1 c f1 h1 hinv
        rw [h.1] at h2
        have := ih t1 f2 h2 hs.1
        exact ⟨this.1, this.2.trans hs.2⟩

/-- Peek and pop of a non-empty heap for the comparison `comp`: the front is
held, nothing held compares greater, and popping removes one occurrence. -/
theorem heap_peek_pop {comp : Int → Int → Bool} (hc : StrictWeak comp) (d : List Int)
    (hne : d ≠ []) (hh : IsHeap comp d d.length) :
    ∃ v, d.head? = some v ∧ v ∈ d ∧ (∀ x ∈ d, comp v x = false) ∧
      (pqPop comp d).Perm (d.erase v) := by
  cases d with
  | nil => exact absurd rfl hne
  | cons y ys =>
    refine ⟨y, rfl, by simp, ?_, ?_⟩
    · intro x hx
      exact isHeap_head hc y ys (by simpa using hh) x hx
    · simpa using pqPop_perm comp y ys

/-- Every call of `identify` on an engine built by registration: either no
tester is registered and the trace holds a pop (the call reads the first tester
out of bounds), or the call returns the result formed from the common flag and
the per-tester runs. -/
theorem identify_cases (ks : List TesterType) (ops : List (Int × Int)) :
    (ks = [] ∧ (∃ o ∈ ops, o.1 = OP_POP) ∧ Engine.identify (registerAll ks) ops = none) ∨
    Engine.identify (registerAll ks) ops =
      some (resultOf (countRun (0, false) ops).2 (pairNames (finalPairs ks ops)),
        ofPairs (finalPairs ks ops)) := by
  by_cases hks : ks = []
  · subst hks
    have hreg : registerAll [] = ofPairs [] := rfl
    have hreset : Engine.resetAll (ofPairs []) = ofPairs [] := rfl
    by_cases hpop : ∃ o ∈ ops, o.1 = OP_POP
    · left
      refine ⟨rfl, hpop, ?_⟩
      unfold Engine.identify
      rw [hreg, hreset, identifyLoop_nil_pop ops false hpop]
    · right
      have hno : ∀ o ∈ ops, o.1 ≠ OP_POP := fun o ho h => hpop ⟨o, ho, h⟩
      unfold Engine.identify
      rw [hreg, hreset, identifyLoop_nil_no_pop ops false hno]
      have hfin : finalPairs [] ops = [] := rfl
      simp only [buildResult_ofPairs, hfin]
      rw [show pairNames [] = [] from rfl, resultOf_nil, resultOf_nil]
  · right
    exact identify_of_shape ks hks _ (hasShape_registerAll ks) ops

theorem getMessage_resultOf (b : Bool) (found : List String) :
    ((resultOf b found).status = .IMPOSSIBLE → (resultOf b found).getMessage = "niemozliwe") ∧
    ((resultOf b found).status = .UNCERTAIN → (resultOf b found).getMessage = "brak pewnosci") ∧
    ((resultOf b found).status = .IDENTIFIED →
      ∃ n, found = [n] ∧ (resultOf b found).matchingStructures = [n] ∧
        (resultOf b found).getMessage = n) := by
  unfold resultOf
  cases b <;> cases found with
  | nil => simp [Result.getMessage]
  | cons x xs =>
    cases xs with
    | nil => simp [Result.getMessage]
    | cons y ys => simp [Result.getMessage]

theorem Tester.withKind_push (v : Int) (t : Tester) (hk : t.kind = .QueueTester) :
    (t.withKind .DequeFrontTester).push v = (t.push v).withKind .DequeFrontTester := by
  obtain ⟨k, d⟩ := t
  simp only at hk
  subst hk
  rfl

theorem Tester.withKind_testPopT (x : Int) (t : Tester) (hk : t.kind = .QueueTester) :
    (t.withKind .DequeFrontTester).testPopT x =
      ((t.testPopT x).1, (t.testPopT x).2.withKind .DequeFrontTester) := by
  obtain ⟨k, d⟩ := t
  simp only at hk
  subst hk
  cases d <;> rfl

theorem Tester.withKind_pop (t : Tester) (hk : t.kind = .QueueTester) :
    (t.withKind .DequeFrontTester).pop =
      t.pop.map (Tester.withKind .DequeFrontTester) := by
  obtain ⟨k, d⟩ := t
  simp only at hk
  subst hk
  cases d <;> rfl

theorem Tester.pop_kind (t t' : Tester) (h : t.pop = some t') : t'.kind = t.kind := by
  obtain ⟨k, d⟩ := t
  cases d with
  | nil => simp [Tester.pop] at h
  | cons y ys =>
    cases k <;> simp only [Tester.pop, Option.some.injEq] at h <;> rw [← h]

/-- The queue tester and the deque tester answer one call alike. -/
theorem Tester.withKind_applyCall (t : Tester) (hk : t.kind = .QueueTester) (c : TesterCall) :
    (t.withKind .DequeFrontTester).applyCall c =
      (t.applyCall c).map (fun r => (r.1.withKind .DequeFrontTester, r.2)) := by
  cases c with
  | push v => simp [Tester.applyCall, Tester.withKind_push v t hk]
  | pop =>
    simp only [Tester.applyCall, Tester.withKind_pop t hk]
    cases t.pop <;> rfl
  | testPop x =>
    simp only [Tester.applyCall, Tester.testPop_eq, Tester.withKind_testPopT x t hk]
    rfl

theorem Tester.applyCall_kind (t t' : Tester) (c : TesterCall) (flags : List Bool)
    (h : t.applyCall c = some (t', flags)) : t'.kind = t.kind := by
  cases c with
  | push v =>
    simp only [Tester.applyCall, Option.some.injEq, Prod.mk.injEq] at h
    rw [← h.1]; exact Tester.push_kind v t
  | pop =>
    cases hp : t.pop with
    | none => simp [Tester.applyCall, hp] at h
    | some t1 =>
      simp only [Tester.applyCall, hp, Option.some.injEq, Prod.mk.injEq] at h
      rw [← h.1]; exact Tester.pop_kind t t1 hp
  | testPop x =>
    simp only [Tester.applyCall, Tester.testPop_eq, Option.some.injEq, Prod.mk.injEq] at h
    rw [← h.1]; exact Tester.testPopT_kind x t

/-- The queue tester and the deque tester answer a sequence of calls alike. -/
theorem Tester.withKind_applyCalls (calls : List TesterCall) (t : Tester)
    (hk : t.kind = .QueueTester) :
    (t.withKind .DequeFrontTester).applyCalls calls =
      (t.applyCalls calls).map (fun r => (r.1.withKind .DequeFrontTester, r.2)) := by
  induction calls generalizing t with
  | nil => rfl
  | cons c rest ih =>
    unfold Tester.applyCalls
    rw [Tester.withKind_applyCall t hk c]
    cases h1 : t.applyCall c with
    | none => rfl
    | some r1 =>
      obtain ⟨t1, f1⟩ := r1
      have hk1 : t1.kind = .QueueTester := (Tester.applyCall_kind t t1 c f1 h1).trans hk
      simp only [Option.map_some']
      rw [ih t1 hk1]
      cases Tester.applyCalls t1 rest with
      | none => rfl
      | some r2 => rfl

theorem Tester.applyCalls_isSome (calls : List TesterCall) (t : Tester)
    (h : ∀ c ∈ calls, c ≠ TesterCall.pop) : (t.applyCalls calls).isSome = true := by
  induction calls generalizing t with
  | nil => rfl
  | cons c rest ih =>
    have hrest : ∀ c' ∈ rest, c' ≠ TesterCall.pop := fun c' hc' => h c' (by simp [hc'])
    unfold Tester.applyCalls
    cases c with
    | push v =>
      simp only [Tester.applyCall]
      have := ih (t.push v) hrest
      cases hx : Tester.applyCalls (t.push v) rest with
      | none => rw [hx] at this; exact absurd this (by simp)
      | some r => rfl
    | pop => exact absurd rfl (h _ (by simp))
    | testPop x =>
      simp only [Tester.applyCall, Tester.testPop_eq]
      have := ih (t.testPopT x).2 hrest
      cases hx : Tester.applyCalls (t.testPopT x).2 rest with
      | none => rw [hx] at this; exact absurd this (by simp)
      | some r => rfl

theorem simStep_withKind (t : Tester) (b : Bool) (o : Int × Int) (hk : t.kind = .QueueTester) :
    simStep (t.withKind .DequeFrontTester, b) o =
      ((simStep (t, b) o).1.withKind .DequeFrontTester, (simStep (t, b) o).2) := by
  unfold simStep
  by_cases h1 : o.1 = OP_PUSH
  · simp only [if_pos h1, Tester.withKind_push _ t hk]
  · simp only [if_neg h1]
    by_cases h2 : o.1 = OP_POP
    · simp only [if_pos h2]
      have he : (t.withKind .DequeFrontTester).empty = t.empty := rfl
      rw [he]
      by_cases h3 : t.empty = true
      · simp only [if_pos h3]
      · simp only [if_neg h3, Tester.withKind_testPopT _ t hk]
    · simp only [if_neg h2]

theorem simRun_withKind (ops : List (Int × Int)) (t : Tester) (b : Bool)
    (hk : t.kind = .QueueTester) :
    simRun (t.withKind .DequeFrontTester, b) ops =
      ((simRun (t, b) ops).1.withKind .DequeFrontTester, (simRun (t, b) ops).2) := by
  induction ops generalizing t b with
  | nil => rfl
  | cons o rest ih =>
    simp only [simRun, List.foldl_cons] at ih ⊢
    rw [simStep_withKind t b o hk]
    exact ih _ _ ((simStep_kind (t, b) o).trans hk)

/-- The queue tester and the deque tester end every trace with the same
validity flag. -/
theorem simRun_queue_deque_flag (ops : List (Int × Int)) :
    (simRun ({ kind := .DequeFrontTester, data_ := [] }, true) ops).2 =
      (simRun ({ kind := .QueueTester, data_ := [] }, true) ops).2 := by
  have := simRun_withKind ops { kind := .QueueTester, data_ := [] } true rfl
  have h2 : Tester.withKind .DequeFrontTester { kind := .QueueTester, data_ := [] } =
      { kind := .DequeFrontTester, data_ := [] } := rfl
  rw [h2] at this
  rw [this]

theorem finalPairs_getElem? (ks : List TesterType) (ops : List (Int × Int)) (i : Nat) :
    (ofPairs (finalPairs ks ops)).isValid_[i]? =
      ks[i]?.map (fun k => (simRun ({ kind := k, data_ := [] }, true) ops).2) := by
  simp only [ofPairs, finalPairs, fresh, List.map_map, List.getElem?_map]
  cases ks[i]? <;> rfl

/-- With `pushAll` itself the parametrised loop body is the loop body of
`identify`. -/
theorem identifyStepWith_pushAll : Engine.identifyStepWith Engine.pushAll = Engine.identifyStep := by
  funext st o
  rfl

/-- With `pushAll` itself the parametrised function is `identify`. -/
theorem identifyWith_pushAll (e : Engine) (ops : List (Int × Int)) :
    Engine.identifyWith Engine.pushAll e ops = Engine.identify e ops := by
  unfold Engine.identifyWith Engine.identify Engine.identifyLoop
  rw [identifyStepWith_pushAll]
  try rfl

theorem pushValid_map (v : Int) (qs : List (Tester × Bool)) :
    pushValid v (qs.map Prod.fst) (qs.map Prod.snd) =
      qs.map (fun q => if q.2 then q.1.push v else q.1) := by
  induction qs with
  | nil => rfl
  | cons q rest ih => simp [pushValid, ih]

theorem pushExceptFirst_ofPairs (v : Int) (p : Tester × Bool) (qs : List (Tester × Bool)) :
    Engine.pushAllSkipFalsifiedExceptFirst v (ofPairs (p :: qs)) =
      ofPairs ((p.1.push v, p.2) ::
        qs.map (fun q => ((if q.2 then q.1.push v else q.1), q.2))) := by
  simp only [Engine.pushAllSkipFalsifiedExceptFirst, ofPairs, List.map_cons, pushValid_map,
    List.map_map, Function.comp_def, Engine.mk.injEq, List.cons.injEq, true_and]

theorem sameWhileValid_push (v : Int) (p q : Tester × Bool) (h : SameWhileValid p q) :
    SameWhileValid (p.1.push v, p.2) ((if q.2 then q.1.push v else q.1), q.2) := by
  obtain ⟨h1, h2⟩ := h
  refine ⟨h1, fun hp => ?_⟩
  simp only at hp
  have hq : q.2 = true := h1 ▸ hp
  simp only [hq, if_true]
  rw [h2 hp]

theorem sameWhileValid_pop (x : Int) (p q : Tester × Bool) (h : SameWhileValid p q) :
    SameWhileValid (popPair x p) (popPair x q) := by
  obtain ⟨h1, h2⟩ := h
  unfold popPair
  cases hp : p.2
  · have hq : q.2 = false := h1 ▸ hp
    refine ⟨by simp [hq], fun hc => ?_⟩
    simp at hc
  · have hpq := h2 hp
    have hq : q.2 = true := h1 ▸ hp
    refine ⟨by simp [hq, hpq], fun _ => ?_⟩
    simp only [hpq]

theorem pairNames_of_same (ps qs : List (Tester × Bool))
    (h : List.Forall₂ SameWhileValid ps qs) : pairNames ps = pairNames qs := by
  induction h with
  | nil => rfl
  | @cons p q ps' qs' hpq _ ih =>
    obtain ⟨h1, h2⟩ := hpq
    have hc : ∀ (a : Tester × Bool) (l : List (Tester × Bool)),
        pairNames (a :: l) = pairNames [a] ++ pairNames l := fun a l =>
      pairNames_append [a] l
    rw [hc p, hc q, ih]
    congr 1
    cases hp : p.2
    · have hq : q.2 = false := h1 ▸ hp
      simp [pairNames, hp, hq]
    · have hq : q.2 = true := h1 ▸ hp
      simp [pairNames, hp, hq, h2 hp]

/-- One operation of the variant that still pushes to the first tester,
against the same operation of `identify`. -/
theorem variantStep_ofPairs (p : Tester × Bool) (ps qs : List (Tester × Bool)) (n : Nat)
    (b : Bool) (o : Int × Int) (hl : Lockstep (p :: ps) n)
    (hs : List.Forall₂ SameWhileValid ps qs) :
    ∃ qs', Engine.identifyStepWith Engine.pushAllSkipFalsifiedExceptFirst
          (ofPairs (p :: qs), b) o =
        some (ofPairs (simStep p o :: qs'), (countStep (n, b) o).2) ∧
      List.Forall₂ SameWhileValid (ps.map (fun a => simStep a o)) qs' := by
  have hp : p.1.data_.length = n := hl p (by simp)
  have hpp : ¬ (OP_POP = OP_PUSH) := by decide
  unfold Engine.identifyStepWith
  by_cases h1 : o.1 = OP_PUSH
  · refine ⟨qs.map (fun q => ((if q.2 then q.1.push o.2 else q.1), q.2)), ?_, ?_⟩
    · simp only [if_pos h1, pushExceptFirst_ofPairs, simStep, countStep]
    · rw [List.forall₂_map_left_iff, List.forall₂_map_right_iff]
      refine hs.imp (fun a c hac => ?_)
      have := sameWhileValid_push o.2 a c hac
      simpa [simStep, h1] using this
  · simp only [if_neg h1]
    by_cases h2 : o.1 = OP_POP
    · simp only [if_pos h2]
      have h0 : (ofPairs (p :: qs)).testers_[0]? = some p.1 := by simp [ofPairs]
      simp only [h0]
      cases n with
      | zero =>
        have hpe : p.1.empty = true := (Tester.empty_iff _).mpr hp
        refine ⟨qs, ?_, ?_⟩
        · rw [if_pos hpe]
          simp [simStep, h2, hpp, hpe, countStep]
        · have hall : ∀ a ∈ ps, simStep a o = a := by
            intro a ha
            have : a.1.empty = true :=
              (Tester.empty_iff _).mpr (hl a (List.mem_cons_of_mem _ ha))
            simp [simStep, h2, hpp, this]
          have hmap : ps.map (fun a => simStep a o) = ps := by
            conv_rhs => rw [← List.map_id ps]
            exact List.map_congr_left hall
          rw [hmap]
          exact hs
      | succ m =>
        have hpe : ¬ p.1.empty = true := by rw [Tester.empty_iff, hp]; omega
        refine ⟨qs.map (popPair o.2), ?_, ?_⟩
        · rw [if_neg hpe, testPopAll_ofPairs]
          simp [simStep, h2, hpp, hpe, countStep, popPair]
        · have hall : ∀ a ∈ ps, simStep a o = popPair o.2 a := by
            intro a ha
            have : ¬ a.1.empty = true := by
              rw [Tester.empty_iff, hl a (List.mem_cons_of_mem _ ha)]; omega
            simp [simStep, h2, hpp, this, popPair]
          rw [List.map_congr_left hall, List.forall₂_map_left_iff,
            List.forall₂_map_right_iff]
          exact hs.imp (fun a c hac => sameWhileValid_pop o.2 a c hac)
    · refine ⟨qs, ?_, ?_⟩
      · simp [simStep, h1, h2, countStep]
      · have hall : ∀ a ∈ ps, simStep a o = a := by
          intro a _
          simp [simStep, h1, h2]
        have hmap : ps.map (fun a => simStep a o) = ps := by
          conv_rhs => rw [← List.map_id ps]
          exact List.map_congr_left hall
        rw [hmap]
        exact hs

/-- A whole trace of the variant that still pushes to the first tester,
against the same trace of `identify`. -/
theorem variantLoop_ofPairs (ops : List (Int × Int)) (p : Tester × Bool)
    (ps qs : List (Tester × Bool)) (n : Nat) (b : Bool) (hl : Lockstep (p :: ps) n)
    (hs : List.Forall₂ SameWhileValid ps qs) :
    ∃ qs', ops.foldlM (Engine.identifyStepWith Engine.pushAllSkipFalsifiedExceptFirst)
          (ofPairs (p :: qs), b) =
        some (ofPairs (simRun p ops :: qs'), (countRun (n, b) ops).2) ∧
      List.Forall₂ SameWhileValid (ps.map (fun a => simRun a ops)) qs' := by
  induction ops generalizing p ps qs n b with
  | nil =>
    refine ⟨qs, rfl, ?_⟩
    simpa [simRun] using hs
  | cons o rest ih =>
    obtain ⟨qs1, hstep, hs1⟩ := variantStep_ofPairs p ps qs n b o hl hs
    have hl1 := lockstep_step (p :: ps) n b o hl
    simp only [List.map_cons] at hl1
    obtain ⟨qs2, hloop, hs2⟩ := ih (simStep p o) (ps.map (fun a => simStep a o)) qs1
      (countStep (n, b) o).1 (countStep (n, b) o).2 hl1 hs1
    refine ⟨qs2, ?_, ?_⟩
    · simp only [List.foldlM_cons, hstep, Option.bind_eq_bind, Option.some_bind]
      simpa [simRun, countRun] using hloop
    · simpa [simRun, List.map_map, Function.comp_def] using hs2

theorem forall₂_same_refl (ps : List (Tester × Bool)) :
    List.Forall₂ SameWhileValid ps ps := by
  induction ps with
  | nil => exact List.Forall₂.nil
  | cons p ps ih => exact List.Forall₂.cons ⟨rfl, fun _ => rfl⟩ ih

theorem pushCount_cons (o : Int × Int) (rest : List (Int × Int)) :
    pushCount (o :: rest) = pushCount rest + (if o.1 = OP_PUSH then 1 else 0) := by
  simp [pushCount, List.countP_cons]

theorem popCount_cons (o : Int × Int) (rest : List (Int × Int)) :
    popCount (o :: rest) = popCount rest + (if o.1 = OP_POP then 1 else 0) := by
  simp [popCount, List.countP_cons]

/-- The pops not skipped, the pushes and the common element count balance. -/
theorem executedPops_ofPairs (ops : List (Int × Int)) (ps : List (Tester × Bool)) (n : Nat)
    (b : Bool) (hne : ps ≠ []) (hl : Lockstep ps n) :
    ∃ m, executedPops (ofPairs ps, b) ops = some m ∧
      (countRun (n, b) ops).1 + m = n + pushCount ops := by
  induction ops generalizing ps n b with
  | nil => exact ⟨0, rfl, rfl⟩
  | cons o rest ih =>
    have hstep := identifyStep_ofPairs ps n b o hne hl
    have hl' := lockstep_step ps n b o hl
    have hne' : ps.map (fun p => simStep p o) ≠ [] := by simpa using hne
    obtain ⟨m', hm', hbal⟩ := ih (ps.map (fun p => simStep p o)) (countStep (n, b) o).1
      (countStep (n, b) o).2 hne' hl'
    have hrun : countRun (n, b) (o :: rest) = countRun (countStep (n, b) o) rest := rfl
    obtain ⟨p0, tl, hps⟩ := List.exists_cons_of_ne_nil hne
    have h0 : (ofPairs ps).testers_[0]? = some p0.1 := by rw [hps]; simp [ofPairs]
    have hp0 : p0.1.data_.length = n := hl p0 (by rw [hps]; simp)
    have hpp : ¬ (OP_POP = OP_PUSH) := by decide
    unfold executedPops
    simp only [hstep, hm', h0]
    rw [hrun, pushCount_cons]
    by_cases h1 : o.1 = OP_PUSH
    · have h2 : ¬ o.1 = OP_POP := by rw [h1]; decide
      refine ⟨m', by simp [h2], ?_⟩
      simp only [countStep, if_pos h1] at hbal ⊢
      omega
    · by_cases h2 : o.1 = OP_POP
      · cases n with
        | zero =>
          have hpe : p0.1.empty = true := (Tester.empty_iff _).mpr hp0
          refine ⟨m', by simp [h2, hpe], ?_⟩
          simp only [countStep, if_neg h1, if_pos h2] at hbal ⊢
          omega
        | succ k =>
          have hpe : ¬ p0.1.empty = true := by rw [Tester.empty_iff, hp0]; omega
          refine ⟨m' + 1, by simp [h2, hpe], ?_⟩
          simp only [countStep, if_neg h1, if_pos h2] at hbal ⊢
          omega
      · refine ⟨m', by simp [h2], ?_⟩
        simp only [countStep, if_neg h1, if_neg h2] at hbal ⊢
        omega

theorem identifyLoop_append (st : Engine × Bool) (p s : List (Int × Int)) :
    Engine.identifyLoop st (p ++ s) =
      (Engine.identifyLoop st p).bind (fun st' => Engine.identifyLoop st' s) := by
  simp [Engine.identifyLoop, List.foldlM_append]

theorem Tester.peek_eq_head (t : Tester) : t.peek = t.data_.head? := by
  obtain ⟨k, d⟩ := t
  cases k <;> rfl

/-- On a non-empty tester `testPop` peeks, pops and reports the comparison. -/
theorem Tester.testPop_nonempty (x : Int) (t : Tester) (h : t.empty = false) :
    ∃ y t', t.peek = some y ∧ t.pop = some t' ∧ t.testPop x = some (decide (y = x), t') ∧
      t.testPopT x = (decide (y = x), t') := by
  cases hd : t.data_ with
  | nil => simp [Tester.empty, hd] at h
  | cons y ys =>
    refine ⟨y, (t.testPopT x).2, ?_, ?_, ?_, ?_⟩
    · rw [Tester.peek_eq_head, hd]; rfl
    · rw [Tester.pop_eq t y ys hd, Tester.testPopT_snd_indep 0 x]
    · rw [Tester.testPop_eq, ← Tester.testPopT_fst x t y ys hd]
    · rw [← Tester.testPopT_fst x t y ys hd]

theorem ofPairs_testers_getElem? (ps : List (Tester × Bool)) (i : Nat) :
    (ofPairs ps).testers_[i]? = ps[i]?.map Prod.fst := by
  simp [ofPairs]

theorem ofPairs_isValid_getElem? (ps : List (Tester × Bool)) (i : Nat) :
    (ofPairs ps).isValid_[i]? = ps[i]?.map Prod.snd := by
  simp [ofPairs]

theorem countRun_flag_mono (p s : List (Int × Int)) (st : Nat × Bool)
    (h : (countRun st p).2 = true) : (countRun st (p ++ s)).2 = true := by
  rw [countRun_append]
  have : countRun st p = ((countRun st p).1, true) := Prod.ext rfl h
  rw [this]
  exact countRun_flag_true s _

theorem simRun_flag_mono (p s : List (Int × Int)) (st : Tester × Bool)
    (h : (simRun st (p ++ s)).2 = true) : (simRun st p).2 = true := by
  rw [simRun_append] at h
  cases hx : (simRun st p).2 with
  | true => rfl
  | false =>
    have : simRun st p = ((simRun st p).1, false) := Prod.ext rfl hx
    rw [this, simRun_flag_false] at h
    exact absurd h (by simp)

theorem filter_sublist_of_imp {α : Type} (P Q : α → Bool) (l : List α)
    (h : ∀ a, P a = true → Q a = true) : (l.filter P).Sublist (l.filter Q) := by
  induction l with
  | nil => exact List.Sublist.slnil
  | cons a l ih =>
    simp only [List.filter_cons]
    cases hP : P a
    · cases hQ : Q a
      · simpa using ih
      · simpa using List.Sublist.cons a ih
    · have hQ := h a hP
      simpa [hQ] using List.Sublist.cons₂ a ih

theorem pairNames_final_sublist (ks : List TesterType) (p s : List (Int × Int)) :
    (pairNames (finalPairs ks (p ++ s))).Sublist (pairNames (finalPairs ks p)) := by
  rw [pairNames_final, pairNames_final]
  apply List.Sublist.map
  exact filter_sublist_of_imp _ _ ks (fun k hk => simRun_flag_mono p s _ hk)

theorem resultOf_mono (b1 b2 : Bool) (n1 n2 : List String) (hb : b1 = true → b2 = true)
    (hn : n2.Sublist n1) :
    (resultOf b2 n2).matchingStructures.Sublist (resultOf b1 n1).matchingStructures ∧
    ((resultOf b1 n1).status = .IMPOSSIBLE → (resultOf b2 n2).status = .IMPOSSIBLE) := by
  cases b1 with
  | true =>
    have hb2 := hb rfl
    subst hb2
    simp [resultOf]
  | false =>
    cases n1 with
    | nil =>
      have : n2 = [] := List.sublist_nil.mp hn
      subst this
      simp [resultOf]
    | cons x xs =>
      have hr1 : (resultOf false (x :: xs)).matchingStructures = x :: xs := by
        unfold resultOf
        simp only [Bool.false_or, List.isEmpty_cons, Bool.false_eq_true, if_false]
        split <;> rfl
      have hs1 : (resultOf false (x :: xs)).status ≠ .IMPOSSIBLE := by
        unfold resultOf
        simp only [Bool.false_or, List.isEmpty_cons, Bool.false_eq_true, if_false]
        split <;> simp
      have hr2 : (resultOf b2 n2).matchingStructures = [] ∨
          (resultOf b2 n2).matchingStructures = n2 := by
        unfold resultOf
        split
        · left; rfl
        · split <;> (right; rfl)
      refine ⟨?_, fun h => absurd h hs1⟩
      rw [hr1]
      rcases hr2 with e | e
      · rw [e]; exact List.nil_sublist _
      · rw [e]; exact hn

theorem countRun_flag_eq (ops : List (Int × Int)) (n : Nat) (b : Bool) :
    (countRun (n, b) ops).2 = (b || !noPopOnEmpty n ops) := by
  induction ops generalizing n b with
  | nil => simp [countRun, noPopOnEmpty]
  | cons o rest ih =>
    simp only [countRun, List.foldl_cons] at ih ⊢
    unfold noPopOnEmpty countStep
    by_cases h1 : o.1 = OP_PUSH
    · simp only [if_pos h1]
      exact ih _ _
    · simp only [if_neg h1]
      by_cases h2 : o.1 = OP_POP
      · simp only [if_pos h2]
        cases n with
        | zero =>
          have := countRun_flag_true rest 0
          simp only [countRun] at this
          simp only [Bool.not_false, Bool.or_true]
          exact this
        | succ k => exact ih _ _
      · simp only [if_neg h2]
        exact ih _ _

/-- A pop meets an empty structure exactly when, after some number of leading
operations, the pops outnumber the pushes and the values held at the start. -/
theorem noPopOnEmpty_eq_false_iff (ops : List (Int × Int)) (n : Nat) :
    noPopOnEmpty n ops = false ↔
      ∃ m, m ≤ ops.length ∧ n + pushCount (ops.take m) < popCount (ops.take m) := by
  induction ops generalizing n with
  | nil =>
    simp [noPopOnEmpty, pushCount, popCount]
  | cons o rest ih =>
    have hpp : ¬ (OP_POP = OP_PUSH) := by decide
    have key : ∀ n', (∃ m, m ≤ rest.length ∧
          n' + pushCount (rest.take m) + (if o.1 = OP_PUSH then 1 else 0) <
            popCount (rest.take m) + (if o.1 = OP_POP then 1 else 0)) ↔
        ∃ m, 0 < m ∧ m ≤ (o :: rest).length ∧
          n' + pushCount ((o :: rest).take m) < popCount ((o :: rest).take m) := by
      intro n'
      constructor
      · rintro ⟨m, hm, hlt⟩
        refine ⟨m + 1, by omega, by simpa using hm, ?_⟩
        rw [List.take_succ_cons, pushCount_cons, popCount_cons]
        omega
      · rintro ⟨m, hm0, hm, hlt⟩
        obtain ⟨m', rfl⟩ : ∃ m', m = m' + 1 := ⟨m - 1, by omega⟩
        rw [List.take_succ_cons, pushCount_cons, popCount_cons] at hlt
        exact ⟨m', by simpa using hm, by omega⟩
    have zero_case : ∀ n', ¬ (n' + pushCount ((o :: rest).take 0) <
        popCount ((o :: rest).take 0)) := by
      intro n'; simp [pushCount, popCount]
    have split : ∀ n', (∃ m, m ≤ (o :: rest).length ∧
          n' + pushCount ((o :: rest).take m) < popCount ((o :: rest).take m)) ↔
        ∃ m, 0 < m ∧ m ≤ (o :: rest).length ∧
          n' + pushCount ((o :: rest).take m) < popCount ((o :: rest).take m) := by
      intro n'
      constructor
      · rintro ⟨m, hm, hlt⟩
        refine ⟨m, ?_, hm, hlt⟩
        rcases Nat.eq_zero_or_pos m with h | h
        · subst h; exact absurd hlt (zero_case n')
        · exact h
      · rintro ⟨m, _, hm, hlt⟩
        exact ⟨m, hm, hlt⟩
    rw [split, ← key]
    unfold noPopOnEmpty
    by_cases h1 : o.1 = OP_PUSH
    · have h2 : ¬ o.1 = OP_POP := by rw [h1]; decide
      simp only [if_pos h1, if_neg h2]
      rw [ih (n + 1)]
      constructor
      · rintro ⟨m, hm, hlt⟩; exact ⟨m, hm, by omega⟩
      · rintro ⟨m, hm, hlt⟩; exact ⟨m, hm, by omega⟩
    · simp only [if_neg h1]
      by_cases h2 : o.1 = OP_POP
      · simp only [if_pos h2]
        cases n with
        | zero =>
          simp only [true_iff]
          exact ⟨0, by omega, by simp [pushCount, popCount]⟩
        | succ k =>
          simp only
          rw [ih k]
          constructor
          · rintro ⟨m, hm, hlt⟩; exact ⟨m, hm, by omega⟩
          · rintro ⟨m, hm, hlt⟩; exact ⟨m, hm, by omega⟩
      · simp only [if_neg h2]
        rw [ih n]
        constructor
        · rintro ⟨m, hm, hlt⟩; exact ⟨m, hm, by omega⟩
        · rintro ⟨m, hm, hlt⟩; exact ⟨m, hm, by omega⟩

theorem resultOf_status_impossible_iff (found : List String) :
    (resultOf false found).status = .IMPOSSIBLE ↔ found = [] := by
  unfold resultOf
  cases found with
  | nil => simp
  | cons x xs =>
    simp only [Bool.false_or, List.isEmpty_cons, Bool.false_eq_true, if_false]
    split <;> simp

theorem pairNames_eq_nil_iff (ps : List (Tester × Bool)) :
    pairNames ps = [] ↔ ∀ v ∈ (ofPairs ps).isValid_, v = false := by
  simp only [pairNames, List.map_eq_nil_iff, List.filter_eq_nil_iff, ofPairs, List.mem_map]
  constructor
  · rintro h v ⟨q, hq, rfl⟩
    simpa using h q hq
  · intro h q hq
    simpa using h q.2 ⟨q, hq, rfl⟩

theorem resultOf_perm (b : Bool) (n1 n2 : List String) (h : n1.Perm n2) :
    (resultOf b n1).status = (resultOf b n2).status ∧
    (resultOf b n1).matchingStructures.Perm (resultOf b n2).matchingStructures := by
  have hlen := h.length_eq
  have hemp : n1.isEmpty = n2.isEmpty := by
    cases n1 <;> cases n2 <;> simp at hlen ⊢
  unfold resultOf
  rw [hemp, hlen]
  split
  · exact ⟨rfl, List.Perm.refl _⟩
  · split
    · exact ⟨rfl, h⟩
    · exact ⟨rfl, h⟩

theorem resultOf_names_sublist (b : Bool) (found : List String) :
    (resultOf b found).matchingStructures.Sublist found := by
  unfold resultOf
  split
  · exact List.nil_sublist _
  · split <;> exact List.Sublist.refl _

theorem pairNames_final_sublist_all (ks : List TesterType) (ops : List (Int × Int)) :
    (pairNames (finalPairs ks ops)).Sublist
      (ks.map (fun k => Tester.name { kind := k, data_ := [] })) := by
  rw [pairNames_final]
  exact List.Sublist.map _ (List.filter_sublist _)

theorem createFullIdentifier_eq :
    createFullIdentifier = registerAll [.StackTester, .QueueTester, .MaxPriorityQueueTester,
      .MinPriorityQueueTester, .DequeFrontTester] := rfl

/-- The names `identify` collects on the full identifier, from the validity
flags of the stack, the queue and the two priority queues; the deque shares the
flag of the queue. -/
theorem pairNames_full (ops : List (Int × Int)) :
    ∃ vs vq vx vn : Bool,
      vq = (simRun ({ kind := .QueueTester, data_ := [] }, true) ops).2 ∧
      pairNames (finalPairs [.StackTester, .QueueTester, .MaxPriorityQueueTester,
          .MinPriorityQueueTester, .DequeFrontTester] ops) =
        (if vs then ["stos"] else []) ++ (if vq then ["kolejka"] else []) ++
          (if vx then ["kolejka priorytetowa"] else []) ++
          (if vn then ["kolejka priorytetowa min"] else []) ++
          (if vq then ["deque (FIFO)"] else []) := by
  refine ⟨(simRun ({ kind := .StackTester, data_ := [] }, true) ops).2,
    (simRun ({ kind := .QueueTester, data_ := [] }, true) ops).2,
    (simRun ({ kind := .MaxPriorityQueueTester, data_ := [] }, true) ops).2,
    (simRun ({ kind := .MinPriorityQueueTester, data_ := [] }, true) ops).2, rfl, ?_⟩
  rw [pairNames_final]
  simp only [List.filter_cons, List.filter_nil, simRun_queue_deque_flag ops]
  cases (simRun ({ kind := .StackTester, data_ := [] }, true) ops).2 <;>
  cases (simRun ({ kind := .QueueTester, data_ := [] }, true) ops).2 <;>
  cases (simRun ({ kind := .MaxPriorityQueueTester, data_ := [] }, true) ops).2 <;>
  cases (simRun ({ kind := .MinPriorityQueueTester, data_ := [] }, true) ops).2 <;>
  rfl

/-- An engine whose two vectors have the same length has the shape given by
the classes of its testers. -/
theorem hasShape_of_lengths (e : Engine) (h : e.isValid_.length = e.testers_.length) :
    HasShape (e.testers_.map Tester.kind) e :=
  ⟨rfl, by rw [h, List.length_map]⟩

theorem kinds_ne_nil (e : Engine) (h : e.testers_ ≠ []) : e.testers_.map Tester.kind ≠ [] := by
  simpa using h

theorem names_of_kinds (ts : List Tester) :
    (ts.map Tester.kind).map (fun k => Tester.name { kind := k, data_ := [] }) =
      ts.map Tester.name := by
  rw [List.map_map]
  apply List.map_congr_left
  intro t _
  exact (Tester.name_eq_of_kind t t.kind rfl).symm

theorem pairNames_final_nil (ks : List TesterType) :
    pairNames (finalPairs ks []) = ks.map (fun k => Tester.name { kind := k, data_ := [] }) := by
  rw [pairNames_final]
  congr 1
  rw [List.filter_eq_self]
  intro k _
  rfl

theorem resultOf_false_of_two (found : List String) (h : 2 ≤ found.length) :
    resultOf false found = { status := .UNCERTAIN, matchingStructures := found } := by
  cases found with
  | nil => simp at h
  | cons x xs =>
    cases xs with
    | nil => simp at h
    | cons y ys => simp [resultOf]

theorem finalPairs_ne_nil (ks : List TesterType) (hks : ks ≠ []) (p : List (Int × Int)) :
    finalPairs ks p ≠ [] := by
  simpa [finalPairs] using fresh_ne_nil ks hks

theorem finalPairs_lockstep (ks : List TesterType) (hks : ks ≠ []) (p : List (Int × Int)) :
    Lockstep (finalPairs ks p) (countRun (0, false) p).1 :=
  (identifyLoop_ofPairs p (fresh ks) 0 false (fresh_ne_nil ks hks) (lockstep_fresh ks)).2

theorem identifyStep_pop_empty (e : Engine) (b : Bool) (v : Int) (t0 : Tester)
    (h0 : e.testers_[0]? = some t0) (he : t0.empty = true) :
    Engine.identifyStep (e, b) (OP_POP, v) = some (e, true) := by
  have hpp : ¬ (OP_POP = OP_PUSH) := by decide
  simp [Engine.identifyStep, hpp, h0, he]

theorem identifyStep_pop_nonempty (e e' : Engine) (b : Bool) (v : Int) (t0 : Tester)
    (h0 : e.testers_[0]? = some t0) (he : t0.empty = false)
    (hpop : Engine.testPopAll v e = some e') :
    Engine.identifyStep (e, b) (OP_POP, v) = some (e', b) := by
  have hpp : ¬ (OP_POP = OP_PUSH) := by decide
  simp [Engine.identifyStep, hpp, h0, he, hpop]

/-! ## The claims -/

/-- C1. On an engine with at least one registered tester, a trace in which some
pop is reached while the first registered tester is empty is classified
IMPOSSIBLE with no names, whatever precedes and follows that pop. -/
theorem C1_pop_on_empty_is_impossible (ks : List TesterType) (hks : ks ≠ [])
    (p s : List (Int × Int)) (v : Int) (e1 : Engine) (b1 : Bool) (t0 : Tester)
    (hreach : Engine.identifyLoop (Engine.resetAll (registerAll ks), false) p = some (e1, b1))
    (h0 : e1.testers_[0]? = some t0) (hempty : t0.empty = true) :
    ∃ e', Engine.identify (registerAll ks) (p ++ (OP_POP, v) :: s) =
      some ({ status := .IMPOSSIBLE, matchingStructures := [] }, e') := by
  have hshape := hasShape_registerAll ks
  have hloop := identifyLoop_ofPairs p (fresh ks) 0 false (fresh_ne_nil ks hks) (lockstep_fresh ks)
  rw [resetAll_of_shape ks _ hshape] at hreach
  rw [hloop.1] at hreach
  simp only [Option.some.injEq, Prod.mk.injEq] at hreach
  obtain ⟨he1, _⟩ := hreach
  subst he1
  have hn : (countRun (0, false) p).1 = 0 := by
    rw [← lockstep_head _ _ hloop.2 t0 h0]
    exact (Tester.empty_iff t0).mp hempty
  refine ⟨ofPairs (finalPairs ks (p ++ (OP_POP, v) :: s)), ?_⟩
  rw [identify_of_shape ks hks _ hshape]
  have hflag : (countRun (0, false) (p ++ (OP_POP, v) :: s)).2 = true := by
    rw [countRun_append]
    have hc : countRun (0, false) p = (0, (countRun (0, false) p).2) :=
      Prod.ext hn rfl
    rw [hc]
    simp only [countRun, List.foldl_cons]
    rw [countStep_pop_zero]
    exact countRun_flag_true s 0
  rw [hflag, resultOf_true]

/-- Witness of C1: the trace `[pop 1]` on the default identifier. -/
theorem C1_witness :
    (Engine.identifyLoop (Engine.resetAll createDefaultIdentifier, false) [] =
        some (Engine.resetAll createDefaultIdentifier, false) ∧
      (Engine.resetAll createDefaultIdentifier).testers_[0]? =
        some { kind := .StackTester, data_ := [] } ∧
      Tester.empty { kind := .StackTester, data_ := [] } = true) ∧
    ∃ e', Engine.identify createDefaultIdentifier [(OP_POP, 1)] =
      some ({ status := .IMPOSSIBLE, matchingStructures := [] }, e') :=
  ⟨⟨rfl, rfl, rfl⟩,
    C1_pop_on_empty_is_impossible
      [.StackTester, .QueueTester, .MaxPriorityQueueTester] (by decide) [] [] 1
      (Engine.resetAll createDefaultIdentifier) false { kind := .StackTester, data_ := [] }
      rfl rfl rfl⟩

/-- C2. The result of `identify` is decided by the final invalid-operation flag
and the final validity flags: IMPOSSIBLE with no names when the flag is set or
no tester is valid, UNCERTAIN with the names of the valid testers in
registration order when two or more are valid, IDENTIFIED with the single valid
tester's name otherwise; hence an IDENTIFIED result has exactly one name, an
UNCERTAIN one at least two, and `isIdentified` holds exactly for IDENTIFIED.
The call has a final state unless no tester is registered and the trace holds a
pop, where the first tester is read out of bounds. -/
theorem C2_result_decided_by_final_flags (ks : List TesterType) (ops : List (Int × Int)) :
    (ks = [] ∧ (∃ o ∈ ops, o.1 = OP_POP) ∧ Engine.identify (registerAll ks) ops = none) ∨
    ∃ e' b r,
      Engine.identifyLoop (Engine.resetAll (registerAll ks), false) ops = some (e', b) ∧
      Engine.identify (registerAll ks) ops = some (r, e') ∧
      (validNames e').length = e'.isValid_.count true ∧
      ((b = true ∨ e'.isValid_.count true = 0) →
        r = { status := .IMPOSSIBLE, matchingStructures := [] }) ∧
      (b = false → 2 ≤ e'.isValid_.count true →
        r = { status := .UNCERTAIN, matchingStructures := validNames e' }) ∧
      (b = false → e'.isValid_.count true = 1 →
        r = { status := .IDENTIFIED, matchingStructures := validNames e' }) ∧
      (r.status = .IDENTIFIED → r.matchingStructures.length = 1) ∧
      (r.status = .UNCERTAIN → 2 ≤ r.matchingStructures.length) ∧
      (r.isIdentified = true ↔ r.status = .IDENTIFIED) := by
  by_cases hks : ks = []
  · subst hks
    have hreg : registerAll [] = ofPairs [] := rfl
    have hreset : Engine.resetAll (ofPairs []) = ofPairs [] := rfl
    by_cases hpop : ∃ o ∈ ops, o.1 = OP_POP
    · left
      refine ⟨rfl, hpop, ?_⟩
      unfold Engine.identify
      rw [hreg, hreset, identifyLoop_nil_pop ops false hpop]
    · right
      have hno : ∀ o ∈ ops, o.1 ≠ OP_POP := fun o ho h => hpop ⟨o, ho, h⟩
      have hloop := identifyLoop_nil_no_pop ops false hno
      refine ⟨ofPairs [], false, resultOf false (pairNames []), ?_, ?_, resultOf_spec false []⟩
      · rw [hreg, hreset, hloop]
      · unfold Engine.identify
        rw [hreg, hreset, hloop]
        simp only [buildResult_ofPairs]
  · right
    have hshape := hasShape_registerAll ks
    exact ⟨ofPairs (finalPairs ks ops), (countRun (0, false) ops).2,
      resultOf (countRun (0, false) ops).2 (pairNames (finalPairs ks ops)),
      identifyLoop_of_shape ks hks _ hshape ops, identify_of_shape ks hks _ hshape ops,
      resultOf_spec _ _⟩

/-- C3. On an engine with at least one registered tester, `identify` on a trace
returns, after any sequence of earlier `identify` calls on that engine, the
result it returns on the freshly built engine; in particular a second call with
the same trace returns the result of the first. -/
theorem C3_identify_history_independent (ks : List TesterType) (hks : ks ≠ [])
    (history : List (List (Int × Int))) (t : List (Int × Int)) :
    ∃ e1 r e2,
      identifyAll (registerAll ks) history = some e1 ∧
      Engine.identify (registerAll ks) t = some (r, e2) ∧
      Engine.identify e1 t = some (r, e2) ∧
      Engine.identify e2 t = some (r, e2) := by
  obtain ⟨e1, h1, hs1⟩ := identifyAll_shape ks hks history _ (hasShape_registerAll ks)
  exact ⟨e1, _, _, h1, identify_of_shape ks hks _ (hasShape_registerAll ks) t,
    identify_of_shape ks hks e1 hs1 t, identify_of_shape ks hks _ (hasShape_final ks t) t⟩

/-- Witness of C3: the default identifier, two earlier calls, then the trace
`[push 1, pop 1]`. -/
theorem C3_witness :
    ∃ e1 r e2,
      identifyAll (registerAll [.StackTester, .QueueTester, .MaxPriorityQueueTester])
        [[(1, 7), (1, 8), (2, 7)], [(2, 3)]] = some e1 ∧
      Engine.identify (registerAll [.StackTester, .QueueTester, .MaxPriorityQueueTester])
        [(1, 1), (2, 1)] = some (r, e2) ∧
      Engine.identify e1 [(1, 1), (2, 1)] = some (r, e2) ∧
      Engine.identify e2 [(1, 1), (2, 1)] = some (r, e2) :=
  C3_identify_history_independent [.StackTester, .QueueTester, .MaxPriorityQueueTester]
    (by decide) [[(1, 7), (1, 8), (2, 7)], [(2, 3)]] [(1, 1), (2, 1)]

/-- C4. On every engine with two or more registered testers, fresh or left by
earlier calls, `identify` on the empty trace returns UNCERTAIN with the names
of all registered testers in registration order. -/
theorem C4_empty_trace_uncertain (e : Engine) (hlen : e.isValid_.length = e.testers_.length)
    (h2 : 2 ≤ e.testers_.length) :
    ∃ e', Engine.identify e [] =
      some ({ status := .UNCERTAIN, matchingStructures := e.testers_.map Tester.name }, e') := by
  have hne : e.testers_ ≠ [] := by
    intro h; rw [h] at h2; simp at h2
  refine ⟨ofPairs (finalPairs (e.testers_.map Tester.kind) []), ?_⟩
  rw [identify_of_shape _ (kinds_ne_nil e hne) e (hasShape_of_lengths e hlen),
    pairNames_final_nil, names_of_kinds]
  have hflag : (countRun (0, false) []).2 = false := rfl
  rw [hflag, resultOf_false_of_two _ (by simpa using h2)]

/-- Witness of C4: the default identifier as the call on
`[push 7, push 8, pop 7]` leaves it, with two flags false and an element in
every tester. -/
theorem C4_witness :
    (Option.map Prod.snd (Engine.identify createDefaultIdentifier [(1, 7), (1, 8), (2, 7)]) =
        some { testers_ := [{ kind := .StackTester, data_ := [7] },
                 { kind := .QueueTester, data_ := [8] },
                 { kind := .MaxPriorityQueueTester, data_ := [7] }],
               isValid_ := [false, true, false] }) ∧
    ∃ e', Engine.identify
        { testers_ := [{ kind := .StackTester, data_ := [7] },
            { kind := .QueueTester, data_ := [8] },
            { kind := .MaxPriorityQueueTester, data_ := [7] }],
          isValid_ := [false, true, false] } [] =
      some ({ status := .UNCERTAIN,
              matchingStructures := ["stos", "kolejka", "kolejka priorytetowa"] }, e') :=
  ⟨by decide, C4_empty_trace_uncertain
    { testers_ := [{ kind := .StackTester, data_ := [7] },
        { kind := .QueueTester, data_ := [8] },
        { kind := .MaxPriorityQueueTester, data_ := [7] }],
      isValid_ := [false, true, false] } rfl (by decide)⟩

/-- C5. On every engine, fresh or left by earlier calls, for a registered
tester `t` and a non-empty trace in which no pop meets an empty structure: when
the trace is consistent with the reference discipline of `t` and inconsistent
with the reference discipline of every other registered tester, `identify`
returns IDENTIFIED with the name of `t` alone. -/
theorem C5_only_consistent_discipline_identified (e : Engine)
    (hlen : e.isValid_.length = e.testers_.length) (i : Nat) (t : Tester)
    (hi : e.testers_[i]? = some t) (ops : List (Int × Int)) (_hne : ops ≠ [])
    (hguard : noPopOnEmpty 0 ops = true)
    (hcons : refConsistent t.kind [] ops = true)
    (hothers : ∀ (j : Nat) (t' : Tester), e.testers_[j]? = some t' → j ≠ i →
      refConsistent t'.kind [] ops = false) :
    ∃ e', Engine.identify e ops =
      some ({ status := .IDENTIFIED, matchingStructures := [t.name] }, e') := by
  have hne : e.testers_ ≠ [] := by
    intro h; rw [h] at hi; simp at hi
  refine ⟨ofPairs (finalPairs (e.testers_.map Tester.kind) ops), ?_⟩
  rw [identify_of_shape _ (kinds_ne_nil e hne) e (hasShape_of_lengths e hlen),
    countRun_flag_of_guard ops 0 false hguard, pairNames_final]
  have hpred : ∀ k', (simRun ({ kind := k', data_ := [] }, true) ops).2 =
      refConsistent k' [] ops := fun k' =>
    simRun_valid_eq_refConsistent k' ops [] [] (by cases k' <;> simp [Represents, IsHeap])
      hguard
  have hfilter : (e.testers_.map Tester.kind).filter
      (fun k => (simRun ({ kind := k, data_ := [] }, true) ops).2) = [t.kind] := by
    apply filter_unique _ _ i t.kind
    · rw [List.getElem?_map, hi]; rfl
    · rw [hpred]; exact hcons
    · intro j k' hj hji
      rw [List.getElem?_map] at hj
      cases htj : e.testers_[j]? with
      | none => rw [htj] at hj; simp at hj
      | some t' =>
        rw [htj] at hj
        simp only [Option.map_some', Option.some.injEq] at hj
        rw [hpred, ← hj]
        exact hothers j t' htj hji
  rw [hfilter]
  simp only [List.map_cons, List.map_nil]
  rw [← Tester.name_eq_of_kind t t.kind rfl]
  rfl

/-- Witness of C5: the queue of the default identifier as the call on
`[push 7, push 8, pop 8]` leaves it (queue flag false, an element in every
tester), on the trace `[push 1, push 2, pop 1, pop 2]`. -/
theorem C5_witness :
    (Option.map Prod.snd (Engine.identify createDefaultIdentifier [(1, 7), (1, 8), (2, 8)]) =
        some { testers_ := [{ kind := .StackTester, data_ := [7] },
                 { kind := .QueueTester, data_ := [8] },
                 { kind := .MaxPriorityQueueTester, data_ := [7] }],
               isValid_ := [true, false, true] } ∧
      noPopOnEmpty 0 [(1, 1), (1, 2), (2, 1), (2, 2)] = true ∧
      refConsistent .QueueTester [] [(1, 1), (1, 2), (2, 1), (2, 2)] = true ∧
      refConsistent .StackTester [] [(1, 1), (1, 2), (2, 1), (2, 2)] = false ∧
      refConsistent .MaxPriorityQueueTester [] [(1, 1), (1, 2), (2, 1), (2, 2)] = false) ∧
    ∃ e', Engine.identify
        { testers_ := [{ kind := .StackTester, data_ := [7] },
            { kind := .QueueTester, data_ := [8] },
            { kind := .MaxPriorityQueueTester, data_ := [7] }],
          isValid_ := [true, false, true] }
        [(1, 1), (1, 2), (2, 1), (2, 2)] =
      some ({ status := .IDENTIFIED, matchingStructures := ["kolejka"] }, e') :=
  ⟨⟨by decide, by decide, by decide, by decide, by decide⟩,
    C5_only_consistent_discipline_identified
      { testers_ := [{ kind := .StackTester, data_ := [7] },
          { kind := .QueueTester, data_ := [8] },
          { kind := .MaxPriorityQueueTester, data_ := [7] }],
        isValid_ := [true, false, true] } rfl 1 { kind := .QueueTester, data_ := [8] } rfl
      [(1, 1), (1, 2), (2, 1), (2, 2)] (by decide) (by decide) (by decide)
      (by
        intro j t' hj hji
        match j, hj, hji with
        | 0, hj, _ =>
          simp only [List.getElem?_cons_zero, Option.some.injEq] at hj
          subst hj; decide
        | 1, _, hji => exact absurd rfl hji
        | 2, hj, _ =>
          simp only [List.getElem?_cons_succ, List.getElem?_cons_zero, Option.some.injEq] at hj
          subst hj; decide
        | n + 3, hj, _ => simp at hj)⟩

/-- Counterexample to C6: on the default identifier the trace
`[push 1, push 2, pop 2, pop 1]` is not classified IDENTIFIED with the name
"stos". -/
theorem C6_counterexample :
    ¬ ∃ e', Engine.identify createDefaultIdentifier
        [(OP_PUSH, 1), (OP_PUSH, 2), (OP_POP, 2), (OP_POP, 1)] =
      some ({ status := .IDENTIFIED, matchingStructures := ["stos"] }, e') := by
  intro h
  obtain ⟨e', he⟩ := h
  have hne : Option.map Prod.fst (Engine.identify createDefaultIdentifier
      [(OP_PUSH, 1), (OP_PUSH, 2), (OP_POP, 2), (OP_POP, 1)]) ≠
      some { status := .IDENTIFIED, matchingStructures := ["stos"] } := by decide
  exact hne (by rw [he]; rfl)

/-- C6, amended. On the default identifier the trace
`[push 1, push 2, pop 2, pop 1]` matches the stack and the max-priority-queue
but not the queue, and `identify` returns UNCERTAIN with the names "stos" and
"kolejka priorytetowa", not IDENTIFIED. -/
theorem C6_stack_trace_matches_stack_and_max_pq :
    Option.map Prod.fst (Engine.identify createDefaultIdentifier
        [(OP_PUSH, 1), (OP_PUSH, 2), (OP_POP, 2), (OP_POP, 1)]) =
      some { status := .UNCERTAIN,
             matchingStructures :=
               [Tester.name { kind := .StackTester, data_ := [] },
                Tester.name { kind := .MaxPriorityQueueTester, data_ := [] }] } ∧
    Option.map (fun p => Result.isIdentified p.1) (Engine.identify createDefaultIdentifier
        [(OP_PUSH, 1), (OP_PUSH, 2), (OP_POP, 2), (OP_POP, 1)]) = some false := by
  decide

/-- C7. On the default identifier the trace `[push 1, push 2, pop 2, pop 1]`
leaves the stack tester and the max-priority-queue tester valid and the queue
tester falsified, and `identify` returns UNCERTAIN with the name list
`["stos", "kolejka priorytetowa"]`, in registration order. -/
theorem C7_ambiguity_reported :
    ∃ e', Engine.identify createDefaultIdentifier
        [(OP_PUSH, 1), (OP_PUSH, 2), (OP_POP, 2), (OP_POP, 1)] =
      some ({ status := .UNCERTAIN,
              matchingStructures := ["stos", "kolejka priorytetowa"] }, e') ∧
      e'.testers_.map Tester.kind =
        [.StackTester, .QueueTester, .MaxPriorityQueueTester] ∧
      e'.isValid_ = [true, false, true] :=
  ⟨{ testers_ := [{ kind := .StackTester, data_ := [] }, { kind := .QueueTester, data_ := [] },
        { kind := .MaxPriorityQueueTester, data_ := [] }],
     isValid_ := [true, false, true] }, by decide⟩

/-- C8. On the default identifier the trace `[push 1, push 2, pop 1, pop 2]`
matches the queue only: the stack tester and the max-priority-queue tester are
falsified, and `identify` returns IDENTIFIED with the name "kolejka". -/
theorem C8_queue_trace_identified :
    ∃ e', Engine.identify createDefaultIdentifier
        [(OP_PUSH, 1), (OP_PUSH, 2), (OP_POP, 1), (OP_POP, 2)] =
      some ({ status := .IDENTIFIED, matchingStructures := ["kolejka"] }, e') ∧
      e'.testers_.map Tester.kind =
        [.StackTester, .QueueTester, .MaxPriorityQueueTester] ∧
      e'.isValid_ = [false, true, false] ∧
      Tester.name { kind := .QueueTester, data_ := [] } = "kolejka" :=
  ⟨{ testers_ := [{ kind := .StackTester, data_ := [] }, { kind := .QueueTester, data_ := [] },
        { kind := .MaxPriorityQueueTester, data_ := [] }],
     isValid_ := [false, true, false] }, by decide⟩

/-- C9. On an engine with at least one registered tester, a trace in which some
pop claims a value that no earlier push of the trace pushed is classified
IMPOSSIBLE. -/
theorem C9_pop_of_unpushed_value_is_impossible (ks : List TesterType) (hks : ks ≠ [])
    (p s : List (Int × Int)) (v : Int) (hv : ∀ o ∈ p, o.1 = OP_PUSH → o.2 ≠ v) :
    ∃ e', Engine.identify (registerAll ks) (p ++ (OP_POP, v) :: s) =
      some ({ status := .IMPOSSIBLE, matchingStructures := [] }, e') := by
  refine ⟨ofPairs (finalPairs ks (p ++ (OP_POP, v) :: s)), ?_⟩
  rw [identify_of_shape ks hks _ (hasShape_registerAll ks)]
  have hlock := (identifyLoop_ofPairs p (fresh ks) 0 false (fresh_ne_nil ks hks)
    (lockstep_fresh ks)).2
  cases hn : (countRun (0, false) p).1 with
  | zero =>
    have hflag : (countRun (0, false) (p ++ (OP_POP, v) :: s)).2 = true := by
      rw [countRun_append]
      have hc : countRun (0, false) p = (0, (countRun (0, false) p).2) := Prod.ext hn rfl
      rw [hc]
      simp only [countRun, List.foldl_cons]
      have : countStep (0, (List.foldl countStep (0, false) p).2) (OP_POP, v) = (0, true) := by
        simp [countStep, OP_POP, OP_PUSH]
      rw [this]
      exact countRun_flag_true s 0
    rw [hflag, resultOf_true]
  | succ m =>
    have hall : ∀ q ∈ finalPairs ks (p ++ (OP_POP, v) :: s), q.2 = false := by
      intro q hq
      simp only [finalPairs, List.mem_map] at hq
      obtain ⟨q0, hq0, rfl⟩ := hq
      have hq0' := hq0
      simp only [fresh, List.mem_map] at hq0'
      obtain ⟨k, _, hk⟩ := hq0'
      rw [simRun_append]
      have hlen : (simRun q0 p).1.data_.length = m + 1 := by
        rw [← hn]
        exact hlock _ (List.mem_map.mpr ⟨q0, hq0, rfl⟩)
      cases hd : (simRun q0 p).1.data_ with
      | nil => rw [hd] at hlen; simp at hlen
      | cons d ds =>
        have hdmem : d ∈ (simRun q0 p).1.data_ := by rw [hd]; simp
        have hdv : d ≠ v := by
          rcases simRun_mem p q0 d hdmem with e | ⟨o, ho, h1, h2⟩
          · rw [← hk] at e; simp at e
          · rw [← h2]; exact hv o ho h1
        have hnotempty : ¬ (simRun q0 p).1.empty = true := by
          rw [Tester.empty_iff, hlen]; omega
        have hstep : simStep (simRun q0 p) (OP_POP, v) =
            (((simRun q0 p).1.testPopT v).2, false) := by
          have hpp : ¬ (OP_POP = OP_PUSH) := by decide
          simp only [simStep, if_neg hpp, if_true, if_neg hnotempty]
          rw [Tester.testPopT_fst v _ d ds hd]
          simp [hdv]
        simp only [simRun, List.foldl_cons] at hstep ⊢
        rw [hstep]
        exact simRun_flag_false s _
    rw [pairNames_eq_nil _ hall, resultOf_nil]

/-- Witness of C9: the trace `[push 5, pop 3]` on the default identifier. -/
theorem C9_witness :
    (∀ o ∈ [((1 : Int), (5 : Int))], o.1 = OP_PUSH → o.2 ≠ 3) ∧
    ∃ e', Engine.identify createDefaultIdentifier [(1, 5), (OP_POP, 3)] =
      some ({ status := .IMPOSSIBLE, matchingStructures := [] }, e') :=
  ⟨by decide, C9_pop_of_unpushed_value_is_impossible
    [.StackTester, .QueueTester, .MaxPriorityQueueTester] (by decide) [(1, 5)] [] 3
    (by decide)⟩

/-- C10. `testPop(expected)` on a tester of any of the five classes, in any
state: on an empty tester it returns false and leaves the tester as it is; on a
non-empty one it returns whether `peek()` equals `expected` and leaves the
tester with its contents less the peeked element, one element fewer, whether
the values matched or not (for the stack, the queue and the deque the remaining
elements keep their order). -/
theorem C10_testPop_behaviour (t : Tester) (expected : Int) :
    (t.empty = true → t.testPop expected = some (false, t)) ∧
    (t.empty = false →
      ∃ v t', t.peek = some v ∧ t.pop = some t' ∧
        t.testPop expected = some (decide (v = expected), t') ∧
        t'.kind = t.kind ∧
        t'.data_.Perm (t.data_.erase v) ∧
        t'.data_.length + 1 = t.data_.length ∧
        (t.kind ≠ .MaxPriorityQueueTester → t.kind ≠ .MinPriorityQueueTester →
          t'.data_ = t.data_.tail)) := by
  obtain ⟨k, d⟩ := t
  cases d with
  | nil =>
    constructor
    · intro _; cases k <;> rfl
    · intro h; simp [Tester.empty] at h
  | cons x xs =>
    constructor
    · intro h; simp [Tester.empty] at h
    · intro _
      cases k
      · exact ⟨x, _, rfl, rfl, rfl, rfl, by simp, by simp, fun _ _ => rfl⟩
      · exact ⟨x, _, rfl, rfl, rfl, rfl, by simp, by simp, fun _ _ => rfl⟩
      · exact ⟨x, _, rfl, rfl, rfl, rfl, by simpa using pqPop_perm stdLess x xs,
          by simp [pqPop_length], fun h _ => absurd rfl h⟩
      · exact ⟨x, _, rfl, rfl, rfl, rfl, by simpa using pqPop_perm stdGreater x xs,
          by simp [pqPop_length], fun _ h => absurd rfl h⟩
      · exact ⟨x, _, rfl, rfl, rfl, rfl, by simp, by simp, fun _ _ => rfl⟩

/-- C11. A max-priority-queue tester that a sequence of calls (push, pop,
testPop; pop only on a non-empty tester), started from reset, leaves non-empty:
`peek()` returns a held value that is greater than or equal to every held
value, and `pop()` removes exactly one occurrence of that value from the held
values. The min-priority-queue tester likewise, with a held value less than or
equal to every held value. -/
theorem C11_priority_queue_peek_is_extreme (t0 : Tester) (calls : List TesterCall)
    (t : Tester) (flags : List Bool)
    (hrun : t0.reset.applyCalls calls = some (t, flags)) (hne : t.empty = false) :
    (t0.kind = .MaxPriorityQueueTester →
      ∃ v t', t.peek = some v ∧ v ∈ t.data_ ∧ (∀ x ∈ t.data_, x ≤ v) ∧
        t.pop = some t' ∧ t'.data_.Perm (t.data_.erase v)) ∧
    (t0.kind = .MinPriorityQueueTester →
      ∃ v t', t.peek = some v ∧ v ∈ t.data_ ∧ (∀ x ∈ t.data_, v ≤ x) ∧
        t.pop = some t' ∧ t'.data_.Perm (t.data_.erase v)) := by
  have hinv := Tester.applyCalls_inv calls _ t flags hrun (Tester.heapInv_reset t0)
  have hkind : t.kind = t0.kind := hinv.2
  obtain ⟨k, d⟩ := t
  have hd : d ≠ [] := by
    intro h; subst h; simp [Tester.empty] at hne
  simp only at hkind
  constructor
  · intro hk
    rw [hk] at hkind
    subst hkind
    obtain ⟨v, h1, h2, h3, h4⟩ := heap_peek_pop stdLess_strictWeak d hd hinv.1
    cases d with
    | nil => exact absurd rfl hd
    | cons y ys =>
      refine ⟨v, _, h1, h2, ?_, rfl, h4⟩
      intro x hx
      have := h3 x hx
      simpa [stdLess] using this
  · intro hk
    rw [hk] at hkind
    subst hkind
    obtain ⟨v, h1, h2, h3, h4⟩ := heap_peek_pop stdGreater_strictWeak d hd hinv.1
    cases d with
    | nil => exact absurd rfl hd
    | cons y ys =>
      refine ⟨v, _, h1, h2, ?_, rfl, h4⟩
      intro x hx
      have := h3 x hx
      simpa [stdGreater] using this

/-- Witness of C11: the max-priority-queue tester after
`push 3, push 5, push 1, pop, push 4`. -/
theorem C11_witness :
    (Tester.applyCalls (Tester.reset { kind := .MaxPriorityQueueTester, data_ := [9] })
        [.push 3, .push 5, .push 1, .pop, .push 4] =
      some ({ kind := .MaxPriorityQueueTester, data_ := [4, 1, 3] }, [])) ∧
    ∃ v t', Tester.peek { kind := .MaxPriorityQueueTester, data_ := [4, 1, 3] } = some v ∧
      v ∈ [(4 : Int), 1, 3] ∧ (∀ x ∈ [(4 : Int), 1, 3], x ≤ v) ∧
      Tester.pop { kind := .MaxPriorityQueueTester, data_ := [4, 1, 3] } = some t' ∧
      t'.data_.Perm (List.erase [(4 : Int), 1, 3] v) :=
  ⟨by decide,
    (C11_priority_queue_peek_is_extreme { kind := .MaxPriorityQueueTester, data_ := [9] }
      [.push 3, .push 5, .push 1, .pop, .push 4]
      { kind := .MaxPriorityQueueTester, data_ := [4, 1, 3] } [] (by decide) (by decide)).1 rfl⟩

/-- C12. A result returned by `identify` is rendered by `getMessage` as
"niemozliwe" when IMPOSSIBLE, as "brak pewnosci" when UNCERTAIN, and as the
name of the single matching tester when IDENTIFIED; an IDENTIFIED result of
`identify` never has an empty name list, so the fallback of `getMessage` is
not taken. The call returns a result unless no tester is registered and the
trace holds a pop. -/
theorem C12_getMessage_of_identify_result (ks : List TesterType) (ops : List (Int × Int)) :
    (ks = [] ∧ (∃ o ∈ ops, o.1 = OP_POP) ∧ Engine.identify (registerAll ks) ops = none) ∨
    ∃ r e', Engine.identify (registerAll ks) ops = some (r, e') ∧
      (r.status = .IMPOSSIBLE → r.getMessage = "niemozliwe") ∧
      (r.status = .UNCERTAIN → r.getMessage = "brak pewnosci") ∧
      (r.status = .IDENTIFIED →
        ∃ k ∈ ks, r.matchingStructures = [Tester.name { kind := k, data_ := [] }] ∧
          r.getMessage = Tester.name { kind := k, data_ := [] }) ∧
      ¬ (r.status = .IDENTIFIED ∧ r.matchingStructures = []) := by
  rcases identify_cases ks ops with h | h
  · exact Or.inl h
  · right
    refine ⟨_, _, h, ?_⟩
    obtain ⟨h1, h2, h3⟩ := getMessage_resultOf (countRun (0, false) ops).2
      (pairNames (finalPairs ks ops))
    refine ⟨h1, h2, ?_, ?_⟩
    · intro hs
      obtain ⟨n, hn, hm, hg⟩ := h3 hs
      have hmem : n ∈ pairNames (finalPairs ks ops) := by rw [hn]; simp
      rw [pairNames_final] at hmem
      obtain ⟨k, hk, rfl⟩ := List.mem_map.mp hmem
      exact ⟨k, (List.mem_filter.mp hk).1, hm, hg⟩
    · intro hcon
      obtain ⟨n, _, hm, _⟩ := h3 hcon.1
      rw [hm] at hcon
      exact absurd hcon.2 (by simp)

/-- Witness of C12: the three renderings on the default identifier. -/
theorem C12_witness :
    Option.map (fun p => Result.getMessage p.1)
        (Engine.identify createDefaultIdentifier [(OP_POP, 1)]) = some "niemozliwe" ∧
    Option.map (fun p => Result.getMessage p.1)
        (Engine.identify createDefaultIdentifier []) = some "brak pewnosci" ∧
    Option.map (fun p => Result.getMessage p.1)
        (Engine.identify createDefaultIdentifier
          [(OP_PUSH, 1), (OP_PUSH, 2), (OP_POP, 1), (OP_POP, 2)]) = some "kolejka" := by
  decide

/-- C13. The queue tester and the FIFO-deque tester behave alike: started from
reset, after every sequence of calls they hold the same values in the same
order, `peek()` and `empty()` agree, and the `testPop` calls returned the same
flags (a sequence of push and testPop calls is always answered); hence in an
engine where both are registered their validity flags are equal after every
trace. -/
theorem C13_queue_and_deque_identical (tq td : Tester) (hq : tq.kind = .QueueTester)
    (hd : td.kind = .DequeFrontTester) (calls : List TesterCall)
    (ks : List TesterType) (i j : Nat) (hi : ks[i]? = some .QueueTester)
    (hj : ks[j]? = some .DequeFrontTester) (ops : List (Int × Int)) :
    ((td.reset.applyCalls calls).map (fun r => (r.1.data_, r.1.peek, r.1.empty, r.2)) =
        (tq.reset.applyCalls calls).map (fun r => (r.1.data_, r.1.peek, r.1.empty, r.2)) ∧
      ((∀ c ∈ calls, c ≠ TesterCall.pop) → (tq.reset.applyCalls calls).isSome = true)) ∧
    ∃ r e' v, Engine.identify (registerAll ks) ops = some (r, e') ∧
      e'.isValid_[i]? = some v ∧ e'.isValid_[j]? = some v := by
  constructor
  · constructor
    · have hreset : td.reset = tq.reset.withKind .DequeFrontTester := by
        obtain ⟨k, d⟩ := td
        simp only at hd
        subst hd
        rfl
      have hqk : tq.reset.kind = .QueueTester := hq
      rw [hreset, Tester.withKind_applyCalls calls _ hqk]
      cases tq.reset.applyCalls calls with
      | none => rfl
      | some r =>
        obtain ⟨⟨k, d⟩, f⟩ := r
        cases k <;> rfl
    · exact Tester.applyCalls_isSome calls _
  · have hks : ks ≠ [] := by
      intro h; subst h; simp at hi
    refine ⟨_, _, (simRun ({ kind := .QueueTester, data_ := [] }, true) ops).2,
      identify_of_shape ks hks _ (hasShape_registerAll ks) ops, ?_, ?_⟩
    · rw [finalPairs_getElem?, hi]; rfl
    · rw [finalPairs_getElem?, hj]
      simp only [Option.map_some']
      rw [simRun_queue_deque_flag]

/-- Witness of C13: the full identifier on a FIFO trace, and one call sequence
on the two testers. -/
theorem C13_witness :
    ((Tester.applyCalls (Tester.reset { kind := .DequeFrontTester, data_ := [] })
          [.push 1, .push 2, .testPop 1, .testPop 5, .push 3]).map
        (fun r => (r.1.data_, r.1.peek, r.1.empty, r.2)) =
      (Tester.applyCalls (Tester.reset { kind := .QueueTester, data_ := [] })
          [.push 1, .push 2, .testPop 1, .testPop 5, .push 3]).map
        (fun r => (r.1.data_, r.1.peek, r.1.empty, r.2)) ∧
      ((∀ c ∈ [TesterCall.push 1, .push 2, .testPop 1, .testPop 5, .push 3],
          c ≠ TesterCall.pop) →
        (Tester.applyCalls (Tester.reset { kind := .QueueTester, data_ := [] })
          [.push 1, .push 2, .testPop 1, .testPop 5, .push 3]).isSome = true)) ∧
    ∃ r e' v, Engine.identify
        (registerAll [.StackTester, .QueueTester, .MaxPriorityQueueTester,
          .MinPriorityQueueTester, .DequeFrontTester])
        [(OP_PUSH, 1), (OP_PUSH, 2), (OP_POP, 1)] = some (r, e') ∧
      e'.isValid_[1]? = some v ∧ e'.isValid_[4]? = some v :=
  C13_queue_and_deque_identical { kind := .QueueTester, data_ := [] }
    { kind := .DequeFrontTester, data_ := [] } rfl rfl
    [.push 1, .push 2, .testPop 1, .testPop 5, .push 3]
    [.StackTester, .QueueTester, .MaxPriorityQueueTester, .MinPriorityQueueTester,
      .DequeFrontTester] 1 4 rfl rfl [(OP_PUSH, 1), (OP_PUSH, 2), (OP_POP, 1)]

/-- Counterexample to C14: on the default identifier, for the trace
`[push 1, push 2, pop 1, push 3, pop 2, pop 3]`, the variant that skips pushes
to falsified testers returns IMPOSSIBLE while `identify` returns IDENTIFIED
with "kolejka". -/
theorem C14_counterexample :
    Option.map Prod.fst (Engine.identifyWith Engine.pushAllSkipFalsified
        createDefaultIdentifier
        [(OP_PUSH, 1), (OP_PUSH, 2), (OP_POP, 1), (OP_PUSH, 3), (OP_POP, 2), (OP_POP, 3)]) =
      some { status := .IMPOSSIBLE, matchingStructures := [] } ∧
    Option.map Prod.fst (Engine.identify createDefaultIdentifier
        [(OP_PUSH, 1), (OP_PUSH, 2), (OP_POP, 1), (OP_PUSH, 3), (OP_POP, 2), (OP_POP, 3)]) =
      some { status := .IDENTIFIED, matchingStructures := ["kolejka"] } := by
  decide

/-- C14, amended. Skipping pushes to falsified testers other than the first
registered one changes no observable output: for every non-empty list of
registered testers and every trace, the variant of `identify` in which a push
is not applied to a tester, other than the first, whose validity flag is
already false returns the same result as `identify`. -/
theorem C14_skip_falsified_except_first (ks : List TesterType) (hks : ks ≠ [])
    (ops : List (Int × Int)) :
    ∃ r e1 e2, Engine.identify (registerAll ks) ops = some (r, e1) ∧
      Engine.identifyWith Engine.pushAllSkipFalsifiedExceptFirst (registerAll ks) ops =
        some (r, e2) := by
  have hshape := hasShape_registerAll ks
  obtain ⟨p, ps, hfresh⟩ := List.exists_cons_of_ne_nil (fresh_ne_nil ks hks)
  have hl : Lockstep (p :: ps) 0 := hfresh ▸ lockstep_fresh ks
  obtain ⟨qs', hloop, hs⟩ := variantLoop_ofPairs ops p ps ps 0 false hl (forall₂_same_refl ps)
  refine ⟨_, _, ofPairs (simRun p ops :: qs'), identify_of_shape ks hks _ hshape ops, ?_⟩
  unfold Engine.identifyWith
  rw [resetAll_of_shape ks _ hshape, hfresh, hloop]
  simp only [buildResult_ofPairs]
  have hnames : pairNames (finalPairs ks ops) = pairNames (simRun p ops :: qs') := by
    simp only [finalPairs, hfresh, List.map_cons]
    exact pairNames_of_same _ _ (List.Forall₂.cons ⟨rfl, fun _ => rfl⟩ hs)
  rw [hnames]

/-- Witness of C14, amended: the default identifier on the trace of the
counterexample. -/
theorem C14_witness :
    ∃ r e1 e2, Engine.identify createDefaultIdentifier
        [(OP_PUSH, 1), (OP_PUSH, 2), (OP_POP, 1), (OP_PUSH, 3), (OP_POP, 2), (OP_POP, 3)] =
        some (r, e1) ∧
      Engine.identifyWith Engine.pushAllSkipFalsifiedExceptFirst createDefaultIdentifier
        [(OP_PUSH, 1), (OP_PUSH, 2), (OP_POP, 1), (OP_PUSH, 3), (OP_POP, 2), (OP_POP, 3)] =
        some (r, e2) :=
  C14_skip_falsified_except_first [.StackTester, .QueueTester, .MaxPriorityQueueTester]
    (by decide) [(OP_PUSH, 1), (OP_PUSH, 2), (OP_POP, 1), (OP_PUSH, 3), (OP_POP, 2), (OP_POP, 3)]

/-- C15. Lockstep: during `identify` on every engine with at least one
registered tester, fresh or left by earlier calls, after the operations `p` of
a trace `p ++ s` every tester, valid or falsified, holds the same number of
elements, namely the number of pushes of `p` minus the number of pops of `p`
that were not skipped; so the first tester is empty exactly when every tester
is empty. -/
theorem C15_lockstep_sizes (e0 : Engine) (hlen : e0.isValid_.length = e0.testers_.length)
    (hne : e0.testers_ ≠ []) (p s : List (Int × Int)) :
    ∃ e b m t0,
      Engine.identifyLoop (Engine.resetAll e0, false) p = some (e, b) ∧
      Engine.identifyLoop (Engine.resetAll e0, false) (p ++ s) =
        Engine.identifyLoop (e, b) s ∧
      executedPops (Engine.resetAll e0, false) p = some m ∧
      e.testers_.length = e0.testers_.length ∧ e.isValid_.length = e0.testers_.length ∧
      (∀ t ∈ e.testers_, t.data_.length + m = pushCount p) ∧
      e.testers_[0]? = some t0 ∧
      (t0.empty = true ↔ ∀ t ∈ e.testers_, t.empty = true) := by
  have hks := kinds_ne_nil e0 hne
  have hshape := hasShape_of_lengths e0 hlen
  generalize e0.testers_.map Tester.kind = ks at hks hshape
  have hklen : ks.length = e0.testers_.length := by
    rw [← hshape.1, List.length_map]
  have hreset := resetAll_of_shape ks _ hshape
  have hloop := identifyLoop_ofPairs p (fresh ks) 0 false (fresh_ne_nil ks hks) (lockstep_fresh ks)
  obtain ⟨m, hm, hbal⟩ := executedPops_ofPairs p (fresh ks) 0 false (fresh_ne_nil ks hks)
    (lockstep_fresh ks)
  have hfinal : (fresh ks).map (fun q => simRun q p) = finalPairs ks p := rfl
  rw [hfinal] at hloop
  obtain ⟨q0, tl, hq⟩ := List.exists_cons_of_ne_nil (finalPairs_ne_nil ks hks p)
  have hsizes : ∀ t ∈ (ofPairs (finalPairs ks p)).testers_,
      t.data_.length = (countRun (0, false) p).1 := by
    intro t ht
    simp only [ofPairs, List.mem_map] at ht
    obtain ⟨q, hq', rfl⟩ := ht
    exact hloop.2 q hq'
  refine ⟨ofPairs (finalPairs ks p), (countRun (0, false) p).2, m, q0.1, ?_, ?_, ?_, ?_, ?_,
    ?_, ?_, ?_⟩
  · rw [hreset]; exact hloop.1
  · rw [identifyLoop_append, hreset, hloop.1]; rfl
  · rw [hreset]; exact hm
  · rw [← hklen]; simp [ofPairs, finalPairs, fresh]
  · rw [← hklen]; simp [ofPairs, finalPairs, fresh]
  · intro t ht
    rw [hsizes t ht]
    omega
  · rw [hq]; simp [ofPairs]
  · have hq0 : q0.1 ∈ (ofPairs (finalPairs ks p)).testers_ := by rw [hq]; simp [ofPairs]
    constructor
    · intro he t ht
      rw [Tester.empty_iff] at he ⊢
      rw [hsizes t ht, ← hsizes q0.1 hq0]
      exact he
    · intro hall
      exact hall q0.1 hq0

/-- Witness of C15: the default identifier as the call on
`[push 7, push 8, pop 7]` leaves it (an element in every tester), after
`[pop 9, push 1, push 2, pop 1]` of a longer trace. -/
theorem C15_witness :
    Option.map (fun st => st.1.testers_.map (fun t => t.data_.length))
        (Engine.identifyLoop (Engine.resetAll
          { testers_ := [{ kind := .StackTester, data_ := [7] },
              { kind := .QueueTester, data_ := [8] },
              { kind := .MaxPriorityQueueTester, data_ := [7] }],
            isValid_ := [false, true, false] }, false)
          [(OP_POP, 9), (OP_PUSH, 1), (OP_PUSH, 2), (OP_POP, 1)]) = some [1, 1, 1] ∧
    executedPops (Engine.resetAll
          { testers_ := [{ kind := .StackTester, data_ := [7] },
              { kind := .QueueTester, data_ := [8] },
              { kind := .MaxPriorityQueueTester, data_ := [7] }],
            isValid_ := [false, true, false] }, false)
        [(OP_POP, 9), (OP_PUSH, 1), (OP_PUSH, 2), (OP_POP, 1)] = some 1 ∧
    ∃ e b m t0,
      Engine.identifyLoop (Engine.resetAll
          { testers_ := [{ kind := .StackTester, data_ := [7] },
              { kind := .QueueTester, data_ := [8] },
              { kind := .MaxPriorityQueueTester, data_ := [7] }],
            isValid_ := [false, true, false] }, false)
        [(OP_POP, 9), (OP_PUSH, 1), (OP_PUSH, 2), (OP_POP, 1)] = some (e, b) ∧
      Engine.identifyLoop (Engine.resetAll
          { testers_ := [{ kind := .StackTester, data_ := [7] },
              { kind := .QueueTester, data_ := [8] },
              { kind := .MaxPriorityQueueTester, data_ := [7] }],
            isValid_ := [false, true, false] }, false)
        ([(OP_POP, 9), (OP_PUSH, 1), (OP_PUSH, 2), (OP_POP, 1)] ++ [(OP_PUSH, 3)]) =
        Engine.identifyLoop (e, b) [(OP_PUSH, 3)] ∧
      executedPops (Engine.resetAll
          { testers_ := [{ kind := .StackTester, data_ := [7] },
              { kind := .QueueTester, data_ := [8] },
              { kind := .MaxPriorityQueueTester, data_ := [7] }],
            isValid_ := [false, true, false] }, false)
        [(OP_POP, 9), (OP_PUSH, 1), (OP_PUSH, 2), (OP_POP, 1)] = some m ∧
      e.testers_.length = 3 ∧ e.isValid_.length = 3 ∧
      (∀ t ∈ e.testers_, t.data_.length + m =
        pushCount [(OP_POP, 9), (OP_PUSH, 1), (OP_PUSH, 2), (OP_POP, 1)]) ∧
      e.testers_[0]? = some t0 ∧
      (t0.empty = true ↔ ∀ t ∈ e.testers_, t.empty = true) :=
  ⟨by decide, by decide, C15_lockstep_sizes
    { testers_ := [{ kind := .StackTester, data_ := [7] },
        { kind := .QueueTester, data_ := [8] },
        { kind := .MaxPriorityQueueTester, data_ := [7] }],
      isValid_ := [false, true, false] } rfl (by decide)
    [(OP_POP, 9), (OP_PUSH, 1), (OP_PUSH, 2), (OP_POP, 1)] [(OP_PUSH, 3)]⟩

/-- C16. `identify` on every engine with at least one registered tester, fresh
or left by earlier calls, always returns: it never calls `peek()` or `pop()` on
an empty tester and never indexes the testers or the validity flags out of
bounds (each of these would leave the call without a result). At every pop of
the trace the first tester is read in bounds, and the step `identify` takes is
one of two. Either the first tester is empty: then every tester is empty and
the step only sets the invalid-operation flag, calling `testPop` on no tester.
Or the first tester is not empty: then every tester is non-empty, the step is
`testPopAll`, and each `testPop` of it peeks and pops and returns false only
when the peeked value differs from the claimed one. -/
theorem C16_identify_is_safe (e0 : Engine) (hlen : e0.isValid_.length = e0.testers_.length)
    (hne : e0.testers_ ≠ []) (ops : List (Int × Int)) :
    (∃ r e', Engine.identify e0 ops = some (r, e')) ∧
    (∀ (t : Tester) (x : Int), ∃ res, t.testPop x = some res) ∧
    ∀ (p s : List (Int × Int)) (v : Int), ops = p ++ (OP_POP, v) :: s →
      ∃ e b t0,
        Engine.identifyLoop (Engine.resetAll e0, false) p = some (e, b) ∧
        e.testers_[0]? = some t0 ∧
        e.isValid_.length = e.testers_.length ∧
        ((t0.empty = true ∧ (∀ t ∈ e.testers_, t.empty = true) ∧
            Engine.identifyStep (e, b) (OP_POP, v) = some (e, true)) ∨
          (t0.empty = false ∧
            ∃ e', Engine.identifyStep (e, b) (OP_POP, v) = some (e', b) ∧
              Engine.testPopAll v e = some e' ∧
              ∀ (i : Nat) (t : Tester), e.testers_[i]? = some t →
                t.empty = false ∧
                ∃ y t' f, t.peek = some y ∧ t.pop = some t' ∧
                  t.testPop v = some (decide (y = v), t') ∧
                  e'.testers_[i]? = some t' ∧
                  e.isValid_[i]? = some f ∧
                  e'.isValid_[i]? = some (f && decide (y = v)))) := by
  have hks := kinds_ne_nil e0 hne
  have hshape := hasShape_of_lengths e0 hlen
  generalize e0.testers_.map Tester.kind = ks at hks hshape
  refine ⟨⟨_, _, identify_of_shape ks hks _ hshape ops⟩,
    fun t x => ⟨_, Tester.testPop_eq x t⟩, ?_⟩
  intro p s v _
  have hreset := resetAll_of_shape ks _ hshape
  have hloop := identifyLoop_ofPairs p (fresh ks) 0 false (fresh_ne_nil ks hks) (lockstep_fresh ks)
  have hfinal : (fresh ks).map (fun q => simRun q p) = finalPairs ks p := rfl
  rw [hfinal] at hloop
  obtain ⟨q0, tl, hq⟩ := List.exists_cons_of_ne_nil (finalPairs_ne_nil ks hks p)
  have h0 : (ofPairs (finalPairs ks p)).testers_[0]? = some q0.1 := by
    rw [hq]; simp [ofPairs]
  have hq0len := hloop.2 q0 (by rw [hq]; simp)
  refine ⟨ofPairs (finalPairs ks p), (countRun (0, false) p).2, q0.1, ?_, h0, ?_, ?_⟩
  · rw [hreset]; exact hloop.1
  · simp [ofPairs]
  · cases hemp : q0.1.empty with
    | true =>
      left
      have hz : (countRun (0, false) p).1 = 0 := by
        rw [← hq0len]; exact (Tester.empty_iff q0.1).mp hemp
      refine ⟨rfl, ?_, identifyStep_pop_empty _ _ v q0.1 h0 hemp⟩
      intro t ht
      simp only [ofPairs, List.mem_map] at ht
      obtain ⟨q, hq', rfl⟩ := ht
      rw [Tester.empty_iff, hloop.2 q hq', hz]
    | false =>
      right
      have hn : (countRun (0, false) p).1 ≠ 0 := by
        intro hz
        rw [hz] at hq0len
        have he := (Tester.empty_iff q0.1).mpr hq0len
        rw [he] at hemp
        exact absurd hemp (by simp)
      have hpop := testPopAll_ofPairs v (finalPairs ks p)
      refine ⟨rfl, _, identifyStep_pop_nonempty _ _ _ v q0.1 h0 hemp hpop, hpop, ?_⟩
      intro i t hi
      rw [ofPairs_testers_getElem?] at hi
      cases hqi : (finalPairs ks p)[i]? with
      | none => rw [hqi] at hi; simp at hi
      | some q =>
        rw [hqi] at hi
        simp only [Option.map_some', Option.some.injEq] at hi
        have hqmem : q ∈ finalPairs ks p := List.getElem?_mem hqi
        have hlenq := hloop.2 q hqmem
        have hte : t.empty = false := by
          cases hx : t.empty with
          | false => rfl
          | true =>
            have := (Tester.empty_iff t).mp hx
            rw [← hi, hlenq] at this
            exact absurd this hn
        obtain ⟨y, t', h1, h2, h3, h4⟩ := Tester.testPop_nonempty v t hte
        refine ⟨hte, y, t', q.2, h1, h2, h3, ?_, ?_, ?_⟩
        · rw [ofPairs_testers_getElem?, List.getElem?_map, hqi]
          simp only [Option.map_some', popPair, hi, h4]
        · rw [ofPairs_isValid_getElem?, hqi]; rfl
        · rw [ofPairs_isValid_getElem?, List.getElem?_map, hqi]
          simp only [Option.map_some', popPair, hi, h4]

/-- Witness of C16: the default identifier as the call on
`[push 7, push 8, pop 7]` leaves it. After `[push 1, push 2, pop 2]` the pop
`pop 7` meets non-empty testers and is the step `testPopAll`; at the start of a
trace the pop `pop 7` meets empty testers and only sets the flag. -/
theorem C16_witness :
    (∃ e', Engine.identifyLoop (Engine.resetAll
            { testers_ := [{ kind := .StackTester, data_ := [7] },
                { kind := .QueueTester, data_ := [8] },
                { kind := .MaxPriorityQueueTester, data_ := [7] }],
              isValid_ := [false, true, false] }, false)
          [(OP_PUSH, 1), (OP_PUSH, 2), (OP_POP, 2)] =
        some ({ testers_ := [{ kind := .StackTester, data_ := [1] },
                  { kind := .QueueTester, data_ := [2] },
                  { kind := .MaxPriorityQueueTester, data_ := [1] }],
                isValid_ := [true, false, true] }, false) ∧
      Engine.identifyStep
          ({ testers_ := [{ kind := .StackTester, data_ := [1] },
               { kind := .QueueTester, data_ := [2] },
               { kind := .MaxPriorityQueueTester, data_ := [1] }],
             isValid_ := [true, false, true] }, false) (OP_POP, 7) = some (e', false) ∧
      Engine.testPopAll 7
          { testers_ := [{ kind := .StackTester, data_ := [1] },
              { kind := .QueueTester, data_ := [2] },
              { kind := .MaxPriorityQueueTester, data_ := [1] }],
            isValid_ := [true, false, true] } = some e' ∧
      e'.isValid_ = [false, false, false] ∧
      ∀ (i : Nat) (t : Tester),
        [({ kind := .StackTester, data_ := [1] } : Tester),
          { kind := .QueueTester, data_ := [2] },
          { kind := .MaxPriorityQueueTester, data_ := [1] }][i]? = some t →
        t.empty = false ∧
        ∃ y t' f, t.peek = some y ∧ t.pop = some t' ∧
          t.testPop 7 = some (decide (y = 7), t') ∧
          e'.testers_[i]? = some t' ∧
          [true, false, true][i]? = some f ∧
          e'.isValid_[i]? = some (f && decide (y = 7))) ∧
    (Engine.identifyStep
        ({ testers_ := [{ kind := .StackTester, data_ := [] },
             { kind := .QueueTester, data_ := [] },
             { kind := .MaxPriorityQueueTester, data_ := [] }],
           isValid_ := [true, true, true] }, false) (OP_POP, 7) =
      some ({ testers_ := [{ kind := .StackTester, data_ := [] },
                { kind := .QueueTester, data_ := [] },
                { kind := .MaxPriorityQueueTester, data_ := [] }],
              isValid_ := [true, true, true] }, true)) := by
  constructor
  · obtain ⟨e, b, t0, hloop, h0, _, hcase⟩ :=
      (C16_identify_is_safe
        { testers_ := [{ kind := .StackTester, data_ := [7] },
            { kind := .QueueTester, data_ := [8] },
            { kind := .MaxPriorityQueueTester, data_ := [7] }],
          isValid_ := [false, true, false] } rfl (by decide)
        ([(OP_PUSH, 1), (OP_PUSH, 2), (OP_POP, 2)] ++ [(OP_POP, 7)])).2.2
        [(OP_PUSH, 1), (OP_PUSH, 2), (OP_POP, 2)] [] 7 rfl
    have hE : Engine.identifyLoop (Engine.resetAll
          { testers_ := [{ kind := .StackTester, data_ := [7] },
              { kind := .QueueTester, data_ := [8] },
              { kind := .MaxPriorityQueueTester, data_ := [7] }],
            isValid_ := [false, true, false] }, false)
        [(OP_PUSH, 1), (OP_PUSH, 2), (OP_POP, 2)] =
        some ({ testers_ := [{ kind := .StackTester, data_ := [1] },
                  { kind := .QueueTester, data_ := [2] },
                  { kind := .MaxPriorityQueueTester, data_ := [1] }],
                isValid_ := [true, false, true] }, false) := by decide
    rw [hE] at hloop
    simp only [Option.some.injEq, Prod.mk.injEq] at hloop
    obtain ⟨he, hb⟩ := hloop
    subst he hb
    simp only [List.getElem?_cons_zero, Option.some.injEq] at h0
    subst h0
    rcases hcase with ⟨hemp, _⟩ | ⟨_, e', hstep, hpop, hall⟩
    · exact absurd hemp (by decide)
    · refine ⟨e', hE, hstep, hpop, ?_, hall⟩
      have hconcrete : Engine.testPopAll 7
          { testers_ := [{ kind := .StackTester, data_ := [1] },
              { kind := .QueueTester, data_ := [2] },
              { kind := .MaxPriorityQueueTester, data_ := [1] }],
            isValid_ := [true, false, true] } =
          some { testers_ := [{ kind := .StackTester, data_ := [] },
                   { kind := .QueueTester, data_ := [] },
                   { kind := .MaxPriorityQueueTester, data_ := [] }],
                 isValid_ := [false, false, false] } := by decide
      rw [hconcrete] at hpop
      simp only [Option.some.injEq] at hpop
      rw [← hpop]
  · obtain ⟨e, b, t0, hloop, h0, _, hcase⟩ :=
      (C16_identify_is_safe
        { testers_ := [{ kind := .StackTester, data_ := [7] },
            { kind := .QueueTester, data_ := [8] },
            { kind := .MaxPriorityQueueTester, data_ := [7] }],
          isValid_ := [false, true, false] } rfl (by decide)
        ([] ++ [(OP_POP, 7)])).2.2 [] [] 7 rfl
    have hE : Engine.identifyLoop (Engine.resetAll
          { testers_ := [{ kind := .StackTester, data_ := [7] },
              { kind := .QueueTester, data_ := [8] },
              { kind := .MaxPriorityQueueTester, data_ := [7] }],
            isValid_ := [false, true, false] }, false) [] =
        some ({ testers_ := [{ kind := .StackTester, data_ := [] },
                  { kind := .QueueTester, data_ := [] },
                  { kind := .MaxPriorityQueueTester, data_ := [] }],
                isValid_ := [true, true, true] }, false) := by decide
    rw [hE] at hloop
    simp only [Option.some.injEq, Prod.mk.injEq] at hloop
    obtain ⟨he, hb⟩ := hloop
    subst he hb
    simp only [List.getElem?_cons_zero, Option.some.injEq] at h0
    subst h0
    rcases hcase with ⟨_, _, hstep⟩ | ⟨hemp, _⟩
    · exact hstep
    · exact absurd hemp (by decide)

/-- C17. Falsification and malformedness are permanent within a call: on an
engine with at least one registered tester, the name list of `identify` on
`p ++ s` is a sublist of the name list of `identify` on `p`; if the result for
`p` is IMPOSSIBLE so is the result for `p ++ s`; a name absent from the result
for `p` is absent from the result for `p ++ s`; and a validity flag that is
false after `p` is false after `p ++ s`. -/
theorem C17_results_shrink_along_extensions (ks : List TesterType) (hks : ks ≠ [])
    (p s : List (Int × Int)) :
    ∃ r1 e1 r2 e2,
      Engine.identify (registerAll ks) p = some (r1, e1) ∧
      Engine.identify (registerAll ks) (p ++ s) = some (r2, e2) ∧
      r2.matchingStructures.Sublist r1.matchingStructures ∧
      (r1.status = .IMPOSSIBLE → r2.status = .IMPOSSIBLE) ∧
      (∀ n, n ∉ r1.matchingStructures → n ∉ r2.matchingStructures) ∧
      (∀ i : Nat, e1.isValid_[i]? = some false → e2.isValid_[i]? = some false) := by
  have hshape := hasShape_registerAll ks
  have hmono := resultOf_mono (countRun (0, false) p).2 (countRun (0, false) (p ++ s)).2
    (pairNames (finalPairs ks p)) (pairNames (finalPairs ks (p ++ s)))
    (countRun_flag_mono p s (0, false)) (pairNames_final_sublist ks p s)
  refine ⟨_, _, _, _, identify_of_shape ks hks _ hshape p,
    identify_of_shape ks hks _ hshape (p ++ s), hmono.1, hmono.2,
    fun n hn hc => hn (hmono.1.subset hc), ?_⟩
  intro i hi
  simp only [ofPairs, finalPairs, fresh, List.map_map, List.getElem?_map] at hi ⊢
  cases hk : ks[i]? with
  | none => rw [hk] at hi; simp at hi
  | some k =>
    rw [hk] at hi
    simp only [Option.map_some', Function.comp_apply, Option.some.injEq] at hi ⊢
    cases hx : (simRun ({ kind := k, data_ := [] }, true) (p ++ s)).2 with
    | false => rfl
    | true =>
      have := simRun_flag_mono p s _ hx
      rw [hi] at this
      exact absurd this (by simp)

/-- Witness of C17: the default identifier, `p = [push 1, push 2, pop 2]` and
`s = [pop 1, pop 5]`. -/
theorem C17_witness :
    ∃ r1 e1 r2 e2,
      Engine.identify createDefaultIdentifier [(OP_PUSH, 1), (OP_PUSH, 2), (OP_POP, 2)] =
        some (r1, e1) ∧
      Engine.identify createDefaultIdentifier
        ([(OP_PUSH, 1), (OP_PUSH, 2), (OP_POP, 2)] ++ [(OP_POP, 1), (OP_POP, 5)]) =
        some (r2, e2) ∧
      r2.matchingStructures.Sublist r1.matchingStructures ∧
      (r1.status = .IMPOSSIBLE → r2.status = .IMPOSSIBLE) ∧
      (∀ n, n ∉ r1.matchingStructures → n ∉ r2.matchingStructures) ∧
      (∀ i : Nat, e1.isValid_[i]? = some false → e2.isValid_[i]? = some false) :=
  C17_results_shrink_along_extensions [.StackTester, .QueueTester, .MaxPriorityQueueTester]
    (by decide) [(OP_PUSH, 1), (OP_PUSH, 2), (OP_POP, 2)] [(OP_POP, 1), (OP_POP, 5)]

/-- C18. On every engine with at least one registered tester, fresh or left by
earlier calls, the invalid-operation flag is set at the end of the loop of
`identify` exactly when some leading part of the trace holds strictly more pops
than pushes. Such a trace is IMPOSSIBLE; a trace without such a leading part is
IMPOSSIBLE exactly when every validity flag is false, and then the trace is
inconsistent with the reference discipline of every registered tester. -/
theorem C18_invalid_flag_characterised (e0 : Engine)
    (hlen : e0.isValid_.length = e0.testers_.length) (hne : e0.testers_ ≠ [])
    (ops : List (Int × Int)) :
    ∃ e b r,
      Engine.identifyLoop (Engine.resetAll e0, false) ops = some (e, b) ∧
      Engine.identify e0 ops = some (r, e) ∧
      (b = true ↔
        ∃ m, m ≤ ops.length ∧ pushCount (ops.take m) < popCount (ops.take m)) ∧
      (b = true → r = { status := .IMPOSSIBLE, matchingStructures := [] }) ∧
      (b = false → (r.status = .IMPOSSIBLE ↔ ∀ v ∈ e.isValid_, v = false)) ∧
      (b = false → r.status = .IMPOSSIBLE →
        ∀ t ∈ e0.testers_, refConsistent t.kind [] ops = false) := by
  have hks := kinds_ne_nil e0 hne
  have hshape := hasShape_of_lengths e0 hlen
  have hflag : (countRun (0, false) ops).2 = true ↔ noPopOnEmpty 0 ops = false := by
    rw [countRun_flag_eq]; simp
  refine ⟨_, _, _, identifyLoop_of_shape _ hks _ hshape ops,
    identify_of_shape _ hks _ hshape ops, ?_, ?_, ?_, ?_⟩
  · rw [hflag, noPopOnEmpty_eq_false_iff]
    simp
  · intro hb
    rw [hb, resultOf_true]
  · intro hb
    rw [hb, resultOf_status_impossible_iff, pairNames_eq_nil_iff]
  · intro hb hs t ht
    rw [hb, resultOf_status_impossible_iff, pairNames_final] at hs
    have hguard : noPopOnEmpty 0 ops = true := by
      cases hx : noPopOnEmpty 0 ops with
      | true => rfl
      | false => rw [hflag.mpr hx] at hb; exact absurd hb (by simp)
    have hvalid := simRun_valid_eq_refConsistent t.kind ops [] []
      (by cases t.kind <;> simp [Represents, IsHeap]) hguard
    rw [← hvalid]
    simp only [List.map_eq_nil_iff, List.filter_eq_nil_iff] at hs
    simpa using hs t.kind (List.mem_map.mpr ⟨t, ht, rfl⟩)

/-- Witness of C18: the default identifier as the call on
`[push 7, push 8, pop 7]` leaves it (an element in every tester), on
`[pop 7, push 1]`, whose first operation alone holds more pops than pushes. -/
theorem C18_witness :
    Option.map Prod.snd (Engine.identifyLoop (Engine.resetAll
          { testers_ := [{ kind := .StackTester, data_ := [7] },
              { kind := .QueueTester, data_ := [8] },
              { kind := .MaxPriorityQueueTester, data_ := [7] }],
            isValid_ := [false, true, false] }, false)
        [(OP_POP, 7), (OP_PUSH, 1)]) = some true ∧
    ∃ e b r,
      Engine.identifyLoop (Engine.resetAll
          { testers_ := [{ kind := .StackTester, data_ := [7] },
              { kind := .QueueTester, data_ := [8] },
              { kind := .MaxPriorityQueueTester, data_ := [7] }],
            isValid_ := [false, true, false] }, false)
        [(OP_POP, 7), (OP_PUSH, 1)] = some (e, b) ∧
      Engine.identify
          { testers_ := [{ kind := .StackTester, data_ := [7] },
              { kind := .QueueTester, data_ := [8] },
              { kind := .MaxPriorityQueueTester, data_ := [7] }],
            isValid_ := [false, true, false] }
        [(OP_POP, 7), (OP_PUSH, 1)] = some (r, e) ∧
      (b = true ↔
        ∃ m, m ≤ [(OP_POP, (7 : Int)), (OP_PUSH, 1)].length ∧
          pushCount ([(OP_POP, (7 : Int)), (OP_PUSH, 1)].take m) <
            popCount ([(OP_POP, (7 : Int)), (OP_PUSH, 1)].take m)) ∧
      (b = true → r = { status := .IMPOSSIBLE, matchingStructures := [] }) ∧
      (b = false → (r.status = .IMPOSSIBLE ↔ ∀ v ∈ e.isValid_, v = false)) ∧
      (b = false → r.status = .IMPOSSIBLE →
        ∀ t ∈ [({ kind := .StackTester, data_ := [7] } : Tester),
            { kind := .QueueTester, data_ := [8] },
            { kind := .MaxPriorityQueueTester, data_ := [7] }],
          refConsistent t.kind [] [(OP_POP, 7), (OP_PUSH, 1)] = false) :=
  ⟨by decide, C18_invalid_flag_characterised
    { testers_ := [{ kind := .StackTester, data_ := [7] },
        { kind := .QueueTester, data_ := [8] },
        { kind := .MaxPriorityQueueTester, data_ := [7] }],
      isValid_ := [false, true, false] } rfl (by decide) [(OP_POP, 7), (OP_PUSH, 1)]⟩

/-- C19. The classification does not depend on the registration order: for two
engines whose lists of registered testers are permutations of each other (at
least one tester), `identify` on the same trace returns the same status, and
the two name lists hold the same names, each in the registration order of its
own engine. -/
theorem C19_registration_order_irrelevant (ks1 ks2 : List TesterType) (hperm : ks1.Perm ks2)
    (hne : ks1 ≠ []) (ops : List (Int × Int)) :
    ∃ r1 e1 r2 e2,
      Engine.identify (registerAll ks1) ops = some (r1, e1) ∧
      Engine.identify (registerAll ks2) ops = some (r2, e2) ∧
      r1.status = r2.status ∧
      r1.matchingStructures.Perm r2.matchingStructures ∧
      r1.matchingStructures.Sublist
        (ks1.map (fun k => Tester.name { kind := k, data_ := [] })) ∧
      r2.matchingStructures.Sublist
        (ks2.map (fun k => Tester.name { kind := k, data_ := [] })) := by
  have hne2 : ks2 ≠ [] := by
    intro h; subst h; exact hne (List.perm_nil.mp hperm)
  have hnames : (pairNames (finalPairs ks1 ops)).Perm (pairNames (finalPairs ks2 ops)) := by
    rw [pairNames_final, pairNames_final]
    exact (hperm.filter _).map _
  have hres := resultOf_perm (countRun (0, false) ops).2 _ _ hnames
  exact ⟨_, _, _, _, identify_of_shape ks1 hne _ (hasShape_registerAll ks1) ops,
    identify_of_shape ks2 hne2 _ (hasShape_registerAll ks2) ops, hres.1, hres.2,
    (resultOf_names_sublist _ _).trans (pairNames_final_sublist_all ks1 ops),
    (resultOf_names_sublist _ _).trans (pairNames_final_sublist_all ks2 ops)⟩

/-- Witness of C19: the default identifier and its testers registered in the
opposite order, on `[push 1, push 2, pop 2, pop 1]`. -/
theorem C19_witness :
    ∃ r1 e1 r2 e2,
      Engine.identify (registerAll [.StackTester, .QueueTester, .MaxPriorityQueueTester])
        [(OP_PUSH, 1), (OP_PUSH, 2), (OP_POP, 2), (OP_POP, 1)] = some (r1, e1) ∧
      Engine.identify (registerAll [.MaxPriorityQueueTester, .QueueTester, .StackTester])
        [(OP_PUSH, 1), (OP_PUSH, 2), (OP_POP, 2), (OP_POP, 1)] = some (r2, e2) ∧
      r1.status = r2.status ∧
      r1.matchingStructures.Perm r2.matchingStructures ∧
      r1.matchingStructures.Sublist
        ([TesterType.StackTester, .QueueTester, .MaxPriorityQueueTester].map
          (fun k => Tester.name { kind := k, data_ := [] })) ∧
      r2.matchingStructures.Sublist
        ([TesterType.MaxPriorityQueueTester, .QueueTester, .StackTester].map
          (fun k => Tester.name { kind := k, data_ := [] })) :=
  C19_registration_order_irrelevant [.StackTester, .QueueTester, .MaxPriorityQueueTester]
    [.MaxPriorityQueueTester, .QueueTester, .StackTester]
    (by decide) (by decide) [(OP_PUSH, 1), (OP_PUSH, 2), (OP_POP, 2), (OP_POP, 1)]

/-- C20. On the full identifier no trace is identified as a queue or as a FIFO
deque: `identify` never returns IDENTIFIED with the name "kolejka" or with the
name "deque (FIFO)". A trace consistent with FIFO order in which no pop meets
an empty structure yields UNCERTAIN with both names in the list; a trace in
which a pop meets an empty structure yields IMPOSSIBLE. -/
theorem C20_full_identifier_never_identifies_fifo (ops : List (Int × Int)) :
    ∃ r e', Engine.identify createFullIdentifier ops = some (r, e') ∧
      r ≠ { status := .IDENTIFIED, matchingStructures := ["kolejka"] } ∧
      r ≠ { status := .IDENTIFIED, matchingStructures := ["deque (FIFO)"] } ∧
      (r.status = .IDENTIFIED →
        "kolejka" ∉ r.matchingStructures ∧ "deque (FIFO)" ∉ r.matchingStructures) ∧
      (noPopOnEmpty 0 ops = true → refConsistent .QueueTester [] ops = true →
        r.status = .UNCERTAIN ∧ "kolejka" ∈ r.matchingStructures ∧
          "deque (FIFO)" ∈ r.matchingStructures) ∧
      (noPopOnEmpty 0 ops = false →
        r = { status := .IMPOSSIBLE, matchingStructures := [] }) := by
  rw [createFullIdentifier_eq]
  refine ⟨_, _, identify_of_shape _ (by decide) _ (hasShape_registerAll _) ops, ?_⟩
  obtain ⟨vs, vq, vx, vn, hvq, hnames⟩ := pairNames_full ops
  rw [hnames, countRun_flag_eq]
  refine ⟨?_, ?_, ?_, ?_, ?_⟩
  · cases noPopOnEmpty 0 ops <;> cases vs <;> cases vq <;> cases vx <;> cases vn <;> decide
  · cases noPopOnEmpty 0 ops <;> cases vs <;> cases vq <;> cases vx <;> cases vn <;> decide
  · cases noPopOnEmpty 0 ops <;> cases vs <;> cases vq <;> cases vx <;> cases vn <;> decide
  · intro hg hc
    have hv := simRun_valid_eq_refConsistent .QueueTester ops [] [] rfl hg
    rw [hc] at hv
    rw [hv] at hvq
    subst hvq
    rw [hg]
    cases vs <;> cases vx <;> cases vn <;> decide
  · intro hg
    rw [hg]
    rfl

/-- Witness of C20: the full identifier on the FIFO trace
`[push 1, push 2, pop 1]`. -/
theorem C20_witness :
    Option.map Prod.fst (Engine.identify createFullIdentifier
        [(OP_PUSH, 1), (OP_PUSH, 2), (OP_POP, 1)]) =
      some { status := .UNCERTAIN,
             matchingStructures := ["kolejka", "kolejka priorytetowa min", "deque (FIFO)"] } := by
  decide

end StructureIdentifier
